import Mathlib

/-!
Verification of the rust-pyspec-db Ethereum state store against its
natural-language specification.

The development shallowly embeds the relevant Rust source files:
bytes are `Nat` values below 256, byte strings are `List Nat`, nibble lists
are `List Nat` with entries below 16, and the fallible, stateful walker code
is embedded as fuelled state-passing functions returning `Except`.

Namespace map:
* `Structs`  embeds `src/structs.rs` (nibble packing, trie-key packing,
  the compact on-disk node codec, the account codec).
* `Backend`  embeds `src/backend.rs` (overlay + durable store,
  `get`/`put`/`delete`/`clear_prefix`).
* `Walk`     embeds `src/walk.rs` (the incremental trie walker).
* `OldLib`   embeds `src/lib.rs` (the older monolithic implementation:
  its walker, transaction staging and the database version check).
-/

namespace Structs

/-- Byte-string relation: `isPre a b` holds when `a` is an initial
segment of `b`.  Used for both nibble paths and packed byte images. -/
def isPre : List Nat → List Nat → Bool
  | [], _ => true
  | _ :: _, [] => false
  | a :: as, b :: bs => a == b && isPre as bs

/-- Packing loop shared by `marshal_nibble_list`, `nibble_list_to_key` and
the hex-prefix encoder: two nibbles per byte, high nibble first, an odd
trailing nibble occupying the high half of a final byte.  This is the
`for i in 0..len/2` loop plus the odd-tail push of the source. -/
def packPairs : List Nat → List Nat
  | a :: b :: rest => (a * 16 + b) :: packPairs rest
  | [x] => [x * 16]
  | [] => []

/-- Number of trailing zero nibbles:
`nibbles.iter().rev().take_while(|x| **x == 0).count()`. -/
def termZeros (l : List Nat) : Nat := (l.reverse.takeWhile (fun x => x == 0)).length

/-- Embeds `structs.rs::nibble_list_to_key`: packed nibbles followed by
`(terminal_zeros + 1) / 2` zero bytes, where an odd-length list ending in a
zero nibble has `terminal_zeros` decremented by one first. -/
def nibble_list_to_key (nibbles : List Nat) : List Nat :=
  let t0 := termZeros nibbles
  let t := if nibbles.length % 2 == 1 && nibbles.getLast? == some 0 then t0 - 1 else t0
  packPairs nibbles ++ List.replicate ((t + 1) / 2) 0

/-- Embeds `structs.rs::marshal_nibble_list`: a length byte (the length is
at most 64, so the `as u8` cast is the identity and is written `% 256`)
followed by the packed nibbles. -/
def marshal_nibble_list (nibbles : List Nat) : List Nat :=
  nibbles.length % 256 :: packPairs nibbles

/-- Unpacking loop of `structs.rs::unmarshal_nibble_list`: reads
`⌈n/2⌉` bytes, two nibbles from each, one from the final byte if `n` is
odd.  The indexed loop of the source is rendered as structural recursion
on the remaining nibble count. -/
def unpackNibbles : Nat → List Nat → List Nat
  | 0, _ => []
  | 1, bytes => [bytes.getD 0 0 / 16]
  | n + 2, bytes => bytes.getD 0 0 / 16 :: bytes.getD 0 0 % 16 :: unpackNibbles n (bytes.drop 1)

/-- Embeds `structs.rs::unmarshal_nibble_list`: returns the nibble list and
the number of bytes consumed, `(data[0] + 1) / 2 + 1`. -/
def unmarshal_nibble_list (data : List Nat) : List Nat × Nat :=
  (unpackNibbles (data.getD 0 0) (data.drop 1), (data.getD 0 0 + 1) / 2 + 1)

/-- Embeds `structs.rs::InternalNode`: the fused two-kind node
representation.  A `Branch` stores exactly sixteen subnode references;
an empty reference stands for an absent child (`ArrayVec` emptiness). -/
inductive InternalNode where
  | Leaf (rest_of_key : List Nat) (value : List Nat)
  | Branch (extension_nibbles : List Nat) (subnodes : List (List Nat))
deriving DecidableEq, Repr

/-- The subnode presence bitmap of `InternalNode::marshal`:
bit `i` is set exactly when subnode `i` is non-empty. -/
def subnodesMask : List (List Nat) → Nat
  | [] => 0
  | s :: rest => (if s.isEmpty then 0 else 1) + 2 * subnodesMask rest

/-- The per-subnode payload of `InternalNode::marshal`: every non-empty
subnode contributes a length byte (`as u8`, written `% 256`; subnode
references never exceed 32 bytes) followed by its bytes. -/
def marshalSubs : List (List Nat) → List Nat
  | [] => []
  | s :: rest => (if s.isEmpty then [] else s.length % 256 :: s) ++ marshalSubs rest

/-- Embeds `structs.rs::InternalNode::marshal`.  The `u16` bitmap is
written big-endian; `subnodesMask subs` is below `2^16` for sixteen
subnodes, so the two bytes are `mask / 256` and `mask % 256`. -/
def InternalNode.marshal : InternalNode → List Nat
  | .Leaf r v => 0 :: (marshal_nibble_list r ++ v)
  | .Branch e subs =>
      1 :: (marshal_nibble_list e ++
        (subnodesMask subs / 256 % 256 :: [subnodesMask subs % 256]) ++ marshalSubs subs)

/-- The subnode-reading loop of `InternalNode::unmarshal`: the source
tests `mask & (1 << i)` for `i = 0, …, 15`; here the mask is shifted right
one bit per step, so the test is on the low bit.  Returns the sixteen
subnodes and the number of bytes consumed. -/
def unmarshalSubs : Nat → Nat → List Nat → List (List Nat) × Nat
  | 0, _, _ => ([], 0)
  | i + 1, mask, data =>
      if mask % 2 == 1 then
        let len := data.getD 0 0
        let r := unmarshalSubs i (mask / 2) (data.drop (1 + len))
        (((data.drop 1).take len) :: r.1, 1 + len + r.2)
      else
        let r := unmarshalSubs i (mask / 2) data
        ([] :: r.1, r.2)

/-- Embeds `structs.rs::InternalNode::unmarshal`. -/
def InternalNode.unmarshal (data : List Nat) : InternalNode :=
  if data.getD 0 0 == 0 then
    let r := unmarshal_nibble_list (data.drop 1)
    .Leaf r.1 (data.drop (1 + r.2))
  else
    let r := unmarshal_nibble_list (data.drop 1)
    let bc := r.2 + 1
    let mask := data.getD bc 0 * 256 + data.getD (bc + 1) 0
    .Branch r.1 (unmarshalSubs 16 mask (data.drop (bc + 2))).1

/-- Embeds `structs.rs::Account`: nonce is a `u64`, balance a `U256`,
`code_hash` a 32-byte hash. -/
structure Account where
  nonce : Nat
  balance : Nat
  code_hash : List Nat
deriving DecidableEq, Repr

/-- Minimal big-endian byte image of a natural number.  This is the value
of `to_be_bytes()[width - len..]` with `len = width - leading_zeros / 8`,
for any width wide enough to hold the number. -/
def natToBE (v : Nat) : List Nat :=
  if h : v = 0 then [] else natToBE (v / 256) ++ [v % 256]
decreasing_by exact Nat.div_lt_self (Nat.pos_of_ne_zero h) (by omega)

/-- Big-endian value of a byte string; zero-padding on the left does not
change the value, matching the source's fixed-width `from_be_bytes` of a
zero-initialised buffer. -/
def fromBE (bytes : List Nat) : Nat := bytes.foldl (fun acc b => acc * 256 + b) 0

/-- Embeds `structs.rs::Account::marshal`; `emptyHash` is the
`EMPTY_CODE_HASH` constant (`keccak256` of the empty string, an external
primitive, hence a parameter). -/
def Account.marshal (emptyHash : List Nat) (a : Account) : List Nat :=
  ((natToBE a.nonce).length % 256 :: natToBE a.nonce) ++
    ((natToBE a.balance).length % 256 :: natToBE a.balance) ++
    (if a.code_hash == emptyHash then [] else a.code_hash)

/-- Embeds `structs.rs::Account::unmarshal`: the code hash is the
empty-code hash when the record ends after the balance, else the next 32
bytes. -/
def Account.unmarshal (emptyHash : List Nat) (data : List Nat) : Account :=
  let nl := data.getD 0 0
  let nonce := fromBE ((data.drop 1).take nl)
  let bl := data.getD (1 + nl) 0
  let balance := fromBE ((data.drop (1 + nl + 1)).take bl)
  let bc := 1 + nl + 1 + bl
  let ch := if data.length == bc then emptyHash else (data.drop bc).take 32
  ⟨nonce, balance, ch⟩

/-- Well-formedness of an internal node, as the claim C9 circumscribes it:
leaf paths and extensions are nibble lists of at most 64 nibbles, and a
branch carries exactly sixteen references of at most 32 bytes each. -/
def nodeWF : InternalNode → Prop
  | .Leaf r _ => (∀ x ∈ r, x < 16) ∧ r.length ≤ 64
  | .Branch e subs =>
      (∀ x ∈ e, x < 16) ∧ e.length ≤ 64 ∧ subs.length = 16 ∧ ∀ s ∈ subs, s.length ≤ 32

theorem packPairs_length (n : List Nat) : (packPairs n).length = (n.length + 1) / 2 := by
  induction n using packPairs.induct with
  | case1 a b t ih => simp [packPairs, ih]; omega
  | case2 x => simp [packPairs]
  | case3 => rfl

theorem unpack_pack (n : List Nat) (hv : ∀ x ∈ n, x < 16) (rest : List Nat) :
    unpackNibbles n.length (packPairs n ++ rest) = n := by
  induction n using packPairs.induct with
  | case1 a b t ih =>
      have ha : a < 16 := hv a (by simp)
      have hb : b < 16 := hv b (by simp)
      have ht : ∀ x ∈ t, x < 16 := fun x hx => hv x (by simp [hx])
      show unpackNibbles (t.length + 2) ((a * 16 + b) :: (packPairs t ++ rest)) = a :: b :: t
      simp only [unpackNibbles, List.getD_cons_zero, List.drop_succ_cons, List.drop_zero]
      have h1 : (a * 16 + b) / 16 = a := by omega
      have h2 : (a * 16 + b) % 16 = b := by omega
      rw [h1, h2, ih ht]
  | case2 x =>
      show unpackNibbles 1 ((x * 16) :: rest) = [x]
      simp only [unpackNibbles, List.getD_cons_zero]
      have h1 : x * 16 / 16 = x := by omega
      rw [h1]
  | case3 => rfl

theorem unl_mnl (n : List Nat) (hv : ∀ x ∈ n, x < 16) (hlen : n.length ≤ 64)
    (rest : List Nat) :
    unmarshal_nibble_list (marshal_nibble_list n ++ rest) = (n, (n.length + 1) / 2 + 1) := by
  have hmod : n.length % 256 = n.length := Nat.mod_eq_of_lt (by omega)
  simp only [unmarshal_nibble_list, marshal_nibble_list, List.cons_append,
    List.getD_cons_zero, List.drop_succ_cons, List.drop_zero, hmod]
  exact congrArg (fun l => (l, (n.length + 1) / 2 + 1)) (unpack_pack n hv rest)

theorem mnl_length (n : List Nat) :
    (marshal_nibble_list n).length = (n.length + 1) / 2 + 1 := by
  simp [marshal_nibble_list, packPairs_length]

theorem subnodesMask_lt (subs : List (List Nat)) :
    subnodesMask subs < 2 ^ subs.length := by
  induction subs with
  | nil => simp [subnodesMask]
  | cons s t ih =>
      simp only [subnodesMask, List.length_cons, pow_succ]
      by_cases hs : s.isEmpty <;> simp [hs] <;> omega

theorem unmarshalSubs_marshalSubs (subs : List (List Nat))
    (hsz : ∀ s ∈ subs, s.length < 256) (rest : List Nat) :
    (unmarshalSubs subs.length (subnodesMask subs) (marshalSubs subs ++ rest)).1 = subs := by
  induction subs with
  | nil => rfl
  | cons s t ih =>
      have hs256 : s.length < 256 := hsz s (by simp)
      have ht : ∀ x ∈ t, x.length < 256 := fun x hx => hsz x (by simp [hx])
      show (unmarshalSubs (t.length + 1) (subnodesMask (s :: t))
        (marshalSubs (s :: t) ++ rest)).1 = s :: t
      by_cases hse : s.isEmpty
      · have hnil : s = [] := List.isEmpty_iff.mp hse
        subst hnil
        have hmask : subnodesMask ([] :: t) = 2 * subnodesMask t := by
          simp [subnodesMask]
        have hm2 : subnodesMask ([] :: t) % 2 = 0 := by omega
        have hd2 : subnodesMask ([] :: t) / 2 = subnodesMask t := by omega
        have hdata : marshalSubs ([] :: t) ++ rest = marshalSubs t ++ rest := by
          simp [marshalSubs]
        have hm2f : (subnodesMask ([] :: t) % 2 == 1) = false := by
          rw [hm2]; rfl
        simp only [unmarshalSubs, hm2f, Bool.false_eq_true, if_false, hd2, hdata]
        rw [ih ht]
      · have hmask : subnodesMask (s :: t) = 1 + 2 * subnodesMask t := by
          simp [subnodesMask, hse]
        have hm2 : subnodesMask (s :: t) % 2 = 1 := by omega
        have hd2 : subnodesMask (s :: t) / 2 = subnodesMask t := by omega
        have hmod : s.length % 256 = s.length := Nat.mod_eq_of_lt hs256
        have hdata : marshalSubs (s :: t) ++ rest =
            s.length :: (s ++ (marshalSubs t ++ rest)) := by
          simp [marshalSubs, hse, hmod]
        have hm2t : (subnodesMask (s :: t) % 2 == 1) = true := by
          rw [hm2]; rfl
        rw [hdata]
        simp only [unmarshalSubs, hm2t, if_true, hd2, List.getD_cons_zero]
        have e1 : (s.length :: (s ++ (marshalSubs t ++ rest))).drop 1 =
            s ++ (marshalSubs t ++ rest) := rfl
        have e2 : (s.length :: (s ++ (marshalSubs t ++ rest))).drop (1 + s.length) =
            (s ++ (marshalSubs t ++ rest)).drop s.length := by
          rw [Nat.add_comm, List.drop_succ_cons]
        rw [e1, e2, List.take_left, List.drop_left]
        rw [ih ht]

theorem u16_be_roundtrip (m : Nat) (hm : m < 65536) :
    m / 256 % 256 * 256 + m % 256 = m := by
  have h1 : m / 256 < 256 := by omega
  rw [Nat.mod_eq_of_lt h1]
  omega

/-- C9: the compact on-disk internal-node codec round-trips: for every
well-formed node (leaf path or extension of at most 64 nibbles, sixteen
subnode references of at most 32 bytes each),
`InternalNode.unmarshal (InternalNode.marshal n) = n`. -/
theorem internal_node_marshal_roundtrip (node : InternalNode) (h : nodeWF node) :
    InternalNode.unmarshal node.marshal = node := by
  cases node with
  | Leaf r v =>
      obtain ⟨hv, hlen⟩ := h
      show InternalNode.unmarshal (0 :: (marshal_nibble_list r ++ v)) = .Leaf r v
      rw [InternalNode.unmarshal]
      have hc : ((0 :: (marshal_nibble_list r ++ v)).getD 0 0 == 0) = true := by rfl
      rw [if_pos hc]
      have hd1 : (0 :: (marshal_nibble_list r ++ v)).drop 1 = marshal_nibble_list r ++ v :=
        rfl
      rw [hd1, unl_mnl r hv hlen v]
      have hdrop : (0 :: (marshal_nibble_list r ++ v)).drop (1 + ((r.length + 1) / 2 + 1)) =
          v := by
        rw [Nat.add_comm 1 ((r.length + 1) / 2 + 1), List.drop_succ_cons]
        rw [← mnl_length r, List.drop_left]
      show InternalNode.Leaf r
          ((0 :: (marshal_nibble_list r ++ v)).drop (1 + ((r.length + 1) / 2 + 1))) =
        InternalNode.Leaf r v
      rw [hdrop]
  | Branch e subs =>
      obtain ⟨hv, hlen, h16, hsz⟩ := h
      have hMlt : subnodesMask subs < 2 ^ 16 := by rw [← h16]; exact subnodesMask_lt subs
      set M := subnodesMask subs with hM
      set X : List Nat := marshal_nibble_list e ++ ((M / 256 % 256 :: [M % 256]) ++
        marshalSubs subs) with hX
      show InternalNode.unmarshal
          (1 :: (marshal_nibble_list e ++ (M / 256 % 256 :: [M % 256]) ++ marshalSubs subs)) =
        .Branch e subs
      have hre : marshal_nibble_list e ++ (M / 256 % 256 :: [M % 256]) ++ marshalSubs subs
          = X := by rw [hX]; simp
      rw [hre, InternalNode.unmarshal]
      have hc : ((1 :: X).getD 0 0 == 0) = false := by rfl
      rw [hc]
      simp only [Bool.false_eq_true, if_false]
      have hd1 : (1 :: X).drop 1 = X := rfl
      have hunl : unmarshal_nibble_list X = (e, (e.length + 1) / 2 + 1) := by
        rw [hX]; exact unl_mnl e hv hlen _
      rw [hd1, hunl]
      have hK : (e.length + 1) / 2 + 1 = (marshal_nibble_list e).length :=
        (mnl_length e).symm
      show InternalNode.Branch e
          (unmarshalSubs 16
            ((1 :: X).getD ((e.length + 1) / 2 + 1 + 1) 0 * 256 +
              (1 :: X).getD ((e.length + 1) / 2 + 1 + 1 + 1) 0)
            ((1 :: X).drop ((e.length + 1) / 2 + 1 + 1 + 2))).1 = InternalNode.Branch e subs
      have hg1 : (1 :: X).getD ((e.length + 1) / 2 + 1 + 1) 0 = M / 256 % 256 := by
        rw [List.getD_cons_succ, hX, hK, List.getD_append_right _ _ _ _ (le_refl _)]
        simp
      have hg2 : (1 :: X).getD ((e.length + 1) / 2 + 1 + 1 + 1) 0 = M % 256 := by
        rw [List.getD_cons_succ, hX]
        rw [List.getD_append_right _ _ _ _ (by rw [← hK]; omega)]
        have hs1 : (e.length + 1) / 2 + 1 + 1 - (marshal_nibble_list e).length = 1 := by
          rw [← hK]; omega
        rw [hs1]
        rfl
      have hg3 : (1 :: X).drop ((e.length + 1) / 2 + 1 + 1 + 2) = marshalSubs subs := by
        have hsplit : (1 : Nat) :: X =
            ((1 :: marshal_nibble_list e) ++ (M / 256 % 256 :: [M % 256])) ++
              marshalSubs subs := by
          rw [hX]; simp
        have hlen2 : ((1 :: marshal_nibble_list e) ++ (M / 256 % 256 :: [M % 256])).length =
            (e.length + 1) / 2 + 1 + 1 + 2 := by
          simp only [List.length_append, List.length_cons, List.length_nil, mnl_length]
        rw [hsplit, ← hlen2, List.drop_left]
      rw [hg1, hg2, hg3]
      have hlt : M < 65536 := by
        have h2 : (2 : Nat) ^ 16 = 65536 := by norm_num
        rw [← h2]; exact hMlt
      rw [u16_be_roundtrip M hlt]
      have hsub : (unmarshalSubs 16 M (marshalSubs subs)).1 = subs := by
        have hsz' : ∀ s ∈ subs, s.length < 256 := fun s hs => by
          have := hsz s hs; omega
        have hres := unmarshalSubs_marshalSubs subs hsz' []
        rw [List.append_nil] at hres
        rw [hM, ← h16]
        exact hres
      rw [hsub]

theorem fromBE_natToBE (v : Nat) : fromBE (natToBE v) = v := by
  induction v using Nat.strong_induction_on with
  | _ v ih =>
    rw [natToBE]
    by_cases hv : v = 0
    · simp [hv, fromBE]
    · rw [dif_neg hv, fromBE, List.foldl_append]
      have hrec := ih (v / 256) (Nat.div_lt_self (Nat.pos_of_ne_zero hv) (by omega))
      rw [fromBE] at hrec
      simp only [List.foldl_cons, List.foldl_nil, hrec]
      omega

/-- A bound below `256 ^ k` marshals to at most `k` big-endian bytes. -/
theorem natToBE_length_le (k : Nat) (v : Nat) (h : v < 256 ^ k) :
    (natToBE v).length ≤ k := by
  induction k generalizing v with
  | zero =>
      have hv : v = 0 := by simpa using h
      rw [hv, natToBE]
      simp
  | succ k ih =>
      rw [natToBE]
      by_cases hv : v = 0
      · simp [hv]
      · rw [dif_neg hv]
        simp only [List.length_append, List.length_cons, List.length_nil]
        have hlt : v / 256 < 256 ^ k := by
          rw [pow_succ] at h; omega
        have := ih (v / 256) hlt
        omega

/-- C10: the on-disk account codec round-trips: for every account with a
`u64` nonce, `u256` balance and 32-byte code hash,
`Account.unmarshal (Account.marshal a) = a`.  The code-hash field is
omitted from the encoding exactly when it equals the empty-code hash
(`emptyHash`, a parameter standing for `keccak256` of the empty string),
and `unmarshal` restores the empty-code hash in that case. -/
theorem account_marshal_roundtrip (emptyHash : List Nat) (a : Account)
    (hn : a.nonce < 2 ^ 64) (hb : a.balance < 2 ^ 256) (hc : a.code_hash.length = 32) :
    Account.unmarshal emptyHash (Account.marshal emptyHash a) = a := by
  obtain ⟨n, bal, ch⟩ := a
  simp only [Account.nonce, Account.balance, Account.code_hash] at hn hb hc
  set N := natToBE n with hNdef
  set B := natToBE bal with hBdef
  set tl : List Nat := if ch == emptyHash then [] else ch with htl
  have hN : N.length < 256 := by
    have h8 : N.length ≤ 8 := by
      rw [hNdef]
      exact natToBE_length_le 8 n (by norm_num at hn ⊢; omega)
    omega
  have hB : B.length < 256 := by
    have h32 : B.length ≤ 32 := by
      rw [hBdef]
      refine natToBE_length_le 32 bal ?_
      have : (256 : Nat) ^ 32 = 2 ^ 256 := by norm_num
      omega
    omega
  have hmodN : N.length % 256 = N.length := Nat.mod_eq_of_lt hN
  have hmodB : B.length % 256 = B.length := Nat.mod_eq_of_lt hB
  have hdata : Account.marshal emptyHash ⟨n, bal, ch⟩ =
      N.length :: (N ++ (B.length :: (B ++ tl))) := by
    show ((N.length % 256 :: N) ++ (B.length % 256 :: B)) ++ tl =
      N.length :: (N ++ (B.length :: (B ++ tl)))
    rw [hmodN, hmodB]
    simp
  rw [hdata, Account.unmarshal]
  have hg0 : (N.length :: (N ++ (B.length :: (B ++ tl)))).getD 0 0 = N.length :=
    List.getD_cons_zero
  rw [hg0]
  have htakeN : ((N.length :: (N ++ (B.length :: (B ++ tl)))).drop 1).take N.length = N := by
    show (N ++ (B.length :: (B ++ tl))).take N.length = N
    exact List.take_left N _
  rw [htakeN]
  have hgB : (N.length :: (N ++ (B.length :: (B ++ tl)))).getD (1 + N.length) 0 =
      B.length := by
    rw [Nat.add_comm 1 N.length, List.getD_cons_succ,
      List.getD_append_right _ _ _ _ (le_refl _)]
    simp
  rw [hgB]
  have htakeB : ((N.length :: (N ++ (B.length :: (B ++ tl)))).drop
      (1 + N.length + 1)).take B.length = B := by
    have hd : (N.length :: (N ++ (B.length :: (B ++ tl)))).drop (1 + N.length + 1) =
        B ++ tl := by
      have h1 : 1 + N.length + 1 = (N.length + 1) + 1 := by omega
      rw [h1, List.drop_succ_cons]
      have h2 : N.length + 1 = N.length + 1 := rfl
      rw [List.drop_append 1]
      rfl
    rw [hd]
    exact List.take_left B tl
  rw [htakeB]
  have hval : fromBE N = n := by rw [hNdef]; exact fromBE_natToBE n
  have hbal : fromBE B = bal := by rw [hBdef]; exact fromBE_natToBE bal
  have hlendata : (N.length :: (N ++ (B.length :: (B ++ tl)))).length =
      1 + N.length + 1 + B.length + tl.length := by
    simp; omega
  by_cases hce : ch == emptyHash
  · have htlnil : tl = [] := by rw [htl, if_pos hce]
    have hcheq : ch = emptyHash := by
      have := eq_of_beq hce
      exact this
    have hlen : ((N.length :: (N ++ (B.length :: (B ++ tl)))).length ==
        1 + N.length + 1 + B.length) = true := by
      rw [hlendata, htlnil]
      simp
    rw [hlen]
    simp only [if_true]
    rw [hval, hbal, hcheq]
  · have htlch : tl = ch := by rw [htl, if_neg hce]
    have hlen : ((N.length :: (N ++ (B.length :: (B ++ tl)))).length ==
        1 + N.length + 1 + B.length) = false := by
      rw [hlendata, htlch]
      have : ch.length = 32 := hc
      simp only [beq_eq_false_iff_ne, ne_eq]
      omega
    rw [hlen]
    simp only [Bool.false_eq_true, if_false]
    have hdrop : (N.length :: (N ++ (B.length :: (B ++ tl)))).drop
        (1 + N.length + 1 + B.length) = tl := by
      have h1 : 1 + N.length + 1 + B.length = (N.length + (1 + B.length)) + 1 := by omega
      rw [h1, List.drop_succ_cons, List.drop_append (1 + B.length),
        Nat.add_comm 1 B.length, List.drop_succ_cons, List.drop_left]
    rw [hdrop, htlch]
    have htake : ch.take 32 = ch := by
      rw [← hc]
      exact List.take_length ch
    rw [htake, hval, hbal]

/-! Claim C4 concerns `nibble_list_to_key`.  The development below first
characterises the packed key as `packPairs core ++ zeros`, where `core` is
the path with its trailing zero nibbles stripped, and then proves that a
byte-prefix relation between packed keys forces the nibble-prefix relation
between the paths. -/

/-- The nibble path with its trailing zero nibbles removed. -/
def coreOf (l : List Nat) : List Nat := (l.reverse.dropWhile (fun x => x == 0)).reverse

theorem takeWhile_zero_eq_replicate (l : List Nat) :
    l.takeWhile (fun x => x == 0) =
      List.replicate (l.takeWhile (fun x => x == 0)).length 0 := by
  induction l with
  | nil => rfl
  | cons x t ih =>
      by_cases hx : x = 0
      · subst hx
        simp only [List.takeWhile_cons]
        simp only [beq_self_eq_true, if_true]
        rw [List.length_cons, List.replicate_succ]
        exact congrArg (0 :: ·) ih
      · simp only [List.takeWhile_cons]
        have : (x == 0) = false := beq_eq_false_iff_ne.mpr hx
        simp [this]

theorem coreOf_append_zeros (l : List Nat) :
    coreOf l ++ List.replicate (termZeros l) 0 = l := by
  have h := List.takeWhile_append_dropWhile (p := fun x => x == 0) (l := l.reverse)
  have h2 : l.reverse.reverse = l := List.reverse_reverse l
  calc coreOf l ++ List.replicate (termZeros l) 0
      = (l.reverse.dropWhile (fun x => x == 0)).reverse ++
          (l.reverse.takeWhile (fun x => x == 0)).reverse := by
        rw [coreOf, termZeros]
        congr 1
        rw [takeWhile_zero_eq_replicate l.reverse]
        simp [List.reverse_replicate]
    _ = (l.reverse.takeWhile (fun x => x == 0) ++
          l.reverse.dropWhile (fun x => x == 0)).reverse := by
        rw [List.reverse_append]
    _ = l := by rw [h, h2]

theorem head_dropWhile_zero (l : List Nat) :
    l.dropWhile (fun x => x == 0) = [] ∨
      ∃ y t, l.dropWhile (fun x => x == 0) = y :: t ∧ y ≠ 0 := by
  induction l with
  | nil => exact Or.inl rfl
  | cons x t ih =>
      by_cases hx : x = 0
      · subst hx
        simpa [List.dropWhile_cons] using ih
      · refine Or.inr ⟨x, t, ?_, hx⟩
        have : (x == 0) = false := beq_eq_false_iff_ne.mpr hx
        simp [List.dropWhile_cons, this]

theorem coreOf_getLast (l : List Nat) :
    coreOf l = [] ∨ (coreOf l).getLast? ≠ some 0 := by
  rcases head_dropWhile_zero l.reverse with h | ⟨y, t, h, hy⟩
  · exact Or.inl (by rw [coreOf, h]; rfl)
  · right
    rw [coreOf, h]
    rw [List.getLast?_reverse]
    simp [hy]

theorem packPairs_append_even (u v : List Nat) (hu : u.length % 2 = 0) :
    packPairs (u ++ v) = packPairs u ++ packPairs v := by
  induction u using packPairs.induct with
  | case1 a b t ih =>
      have ht : t.length % 2 = 0 := by
        simp only [List.length_cons] at hu; omega
      simp [packPairs, ih ht]
  | case2 x => simp at hu
  | case3 => simp [packPairs]

theorem packPairs_replicate_zero (t : Nat) :
    packPairs (List.replicate t 0) = List.replicate ((t + 1) / 2) 0 := by
  induction t using Nat.strong_induction_on with
  | _ t ih =>
    match t with
    | 0 => rfl
    | 1 => rfl
    | (s + 2) =>
        have hr : List.replicate (s + 2) (0 : Nat) = 0 :: 0 :: List.replicate s 0 := by
          simp [List.replicate_succ]
        rw [hr]
        show (0 * 16 + 0) :: packPairs (List.replicate s 0) = _
        rw [ih s (by omega)]
        have harith : (s + 2 + 1) / 2 = (s + 1) / 2 + 1 := by omega
        rw [harith, List.replicate_succ]

theorem packPairs_odd_append_zeros (c₀ : List Nat) (x : Nat) (hc : c₀.length % 2 = 0)
    (t : Nat) (ht : 1 ≤ t) :
    packPairs ((c₀ ++ [x]) ++ List.replicate t 0) =
      packPairs (c₀ ++ [x]) ++ List.replicate (t / 2) 0 := by
  obtain ⟨s, rfl⟩ : ∃ s, t = s + 1 := ⟨t - 1, by omega⟩
  have h1 : (c₀ ++ [x]) ++ List.replicate (s + 1) 0 =
      c₀ ++ (x :: 0 :: List.replicate s 0) := by
    simp [List.replicate_succ]
  rw [h1, packPairs_append_even c₀ _ hc, packPairs_append_even c₀ [x] hc]
  show packPairs c₀ ++ ((x * 16 + 0) :: packPairs (List.replicate s 0)) =
    (packPairs c₀ ++ [x * 16]) ++ List.replicate ((s + 1) / 2) 0
  rw [packPairs_replicate_zero]
  simp

theorem takeWhile_replicate_append (t : Nat) (r : List Nat) :
    (List.replicate t 0 ++ r).takeWhile (fun x => x == 0) =
      List.replicate t 0 ++ r.takeWhile (fun x => x == 0) := by
  induction t with
  | zero => simp
  | succ s ih => simp [List.replicate_succ, List.takeWhile_cons, ih]

theorem termZeros_append (c : List Nat) (t : Nat) (hc : c = [] ∨ c.getLast? ≠ some 0) :
    termZeros (c ++ List.replicate t 0) = t := by
  have hrev : (c ++ List.replicate t 0).reverse =
      List.replicate t 0 ++ c.reverse := by
    simp [List.reverse_append, List.reverse_replicate]
  rw [termZeros, hrev, takeWhile_replicate_append]
  have hrtw : c.reverse.takeWhile (fun x => x == 0) = [] := by
    rcases hc with h | h
    · subst h; rfl
    · cases hcr : c.reverse with
      | nil => rfl
      | cons y r =>
          have hy : some y = c.getLast? := by
            rw [← List.head?_reverse, hcr]; rfl
          have hyne : y ≠ 0 := fun h0 => h (by rw [← hy, h0])
          rw [List.takeWhile_cons]
          have : (y == 0) = false := beq_eq_false_iff_ne.mpr hyne
          simp [this]
  rw [hrtw]
  simp

theorem key_formula (l : List Nat) :
    nibble_list_to_key l = packPairs l ++
      List.replicate
        (((if l.length % 2 == 1 && l.getLast? == some 0 then termZeros l - 1
           else termZeros l) + 1) / 2) 0 := rfl

/-- Master characterisation of the trie-key packing: for a path written as
its core (trailing zeros stripped) followed by `t` zero nibbles, the packed
key is the packed core followed by exactly `t` zero bytes. -/
theorem key_core (c : List Nat) (t : Nat) (hc : c = [] ∨ c.getLast? ≠ some 0) :
    nibble_list_to_key (c ++ List.replicate t 0) = packPairs c ++ List.replicate t 0 := by
  have htz : termZeros (c ++ List.replicate t 0) = t := termZeros_append c t hc
  have hlen : (c ++ List.replicate t 0).length = c.length + t := by simp
  have hlast1 : ∀ s, t = s + 1 → (c ++ List.replicate t 0).getLast? = some 0 := by
    intro s hs
    subst hs
    have : c ++ List.replicate (s + 1) 0 = (c ++ List.replicate s 0) ++ [0] := by
      have : List.replicate (s + 1) (0 : Nat) = List.replicate s 0 ++ [0] :=
        List.replicate_succ' s 0
      rw [this, List.append_assoc]
    rw [this, List.getLast?_concat]
  rw [key_formula, htz, hlen]
  by_cases hL : c.length % 2 = 0
  · -- even core
    have hpp : packPairs (c ++ List.replicate t 0) =
        packPairs c ++ List.replicate ((t + 1) / 2) 0 := by
      rw [packPairs_append_even c _ hL, packPairs_replicate_zero]
    by_cases ht2 : t % 2 = 0
    · have hc1 : ((c.length + t) % 2 == 1) = false := by
        have : (c.length + t) % 2 = 0 := by omega
        simp [this]
      rw [hc1, Bool.false_and, if_neg (by simp)]
      rw [hpp, List.append_assoc, ← List.replicate_add]
      have : (t + 1) / 2 + (t + 1) / 2 = t := by omega
      rw [this]
    · -- t odd, so the whole list ends in a lone zero nibble
      obtain ⟨s, rfl⟩ : ∃ s, t = s + 1 := ⟨t - 1, by omega⟩
      have hc1 : ((c.length + (s + 1)) % 2 == 1) = true := by
        have : (c.length + (s + 1)) % 2 = 1 := by omega
        simp [this]
      have hc2 : ((c ++ List.replicate (s + 1) 0).getLast? == some 0) = true := by
        rw [hlast1 s rfl]; rfl
      rw [hc1, hc2, Bool.true_and, if_pos rfl]
      rw [hpp, List.append_assoc, ← List.replicate_add]
      have : (s + 1 + 1) / 2 + (s + 1 - 1 + 1) / 2 = s + 1 := by omega
      rw [this]
  · -- odd core: c = c₀ ++ [x] with x ≠ 0
    have hcne : c ≠ [] := by
      intro h; subst h; simp at hL
    obtain ⟨c₀, x, rfl⟩ : ∃ c₀ x, c = c₀ ++ [x] := by
      rcases List.eq_nil_or_concat c with h | ⟨c₀, x, h⟩
      · exact absurd h hcne
      · exact ⟨c₀, x, by simpa using h⟩
    have hxlast : (c₀ ++ [x]).getLast? = some x := List.getLast?_concat c₀
    have hxne : x ≠ 0 := by
      rcases hc with h | h
      · simp at h
      · intro h0; exact h (by rw [hxlast, h0])
    have hc0 : c₀.length % 2 = 0 := by
      have : (c₀ ++ [x]).length = c₀.length + 1 := by simp
      omega
    by_cases ht0 : t = 0
    · subst ht0
      have hc2 : ((c₀ ++ [x] ++ List.replicate 0 0).getLast? == some 0) = false := by
        simp only [List.replicate_zero, List.append_nil, hxlast]
        simp [hxne]
      rw [hc2, Bool.and_false, if_neg (by simp)]
      simp
    · have hpp : packPairs ((c₀ ++ [x]) ++ List.replicate t 0) =
          packPairs (c₀ ++ [x]) ++ List.replicate (t / 2) 0 :=
        packPairs_odd_append_zeros c₀ x hc0 t (by omega)
      obtain ⟨s, rfl⟩ : ∃ s, t = s + 1 := ⟨t - 1, by omega⟩
      have hc2 : ((c₀ ++ [x] ++ List.replicate (s + 1) 0).getLast? == some 0) = true := by
        rw [hlast1 s rfl]; rfl
      by_cases ht2 : (s + 1) % 2 = 0
      · have hc1 : (((c₀ ++ [x]).length + (s + 1)) % 2 == 1) = true := by
          have h1 : (c₀ ++ [x]).length = c₀.length + 1 := by simp
          have h2 : ((c₀ ++ [x]).length + (s + 1)) % 2 = 1 := by rw [h1]; omega
          rw [h2]
          rfl
        rw [hc1, hc2, Bool.true_and, if_pos rfl]
        rw [hpp, List.append_assoc, ← List.replicate_add]
        have : (s + 1) / 2 + (s + 1 - 1 + 1) / 2 = s + 1 := by omega
        rw [this]
      · have hc1 : (((c₀ ++ [x]).length + (s + 1)) % 2 == 1) = false := by
          have h1 : (c₀ ++ [x]).length = c₀.length + 1 := by simp
          have h2 : ((c₀ ++ [x]).length + (s + 1)) % 2 = 0 := by rw [h1]; omega
          rw [h2]
          rfl
        rw [hc1, Bool.false_and, if_neg (by simp)]
        rw [hpp, List.append_assoc, ← List.replicate_add]
        have : (s + 1) / 2 + (s + 1 + 1) / 2 = s + 1 := by omega
        rw [this]

theorem isPre_zeros_mono (s : Nat) : ∀ t (l : List Nat), s ≤ t →
    isPre (List.replicate t 0) l = true → isPre (List.replicate s 0) l = true := by
  induction s with
  | zero => intro t l _ _; rfl
  | succ s ih =>
      intro t l hst h
      obtain ⟨u, rfl⟩ : ∃ u, t = u + 1 := ⟨t - 1, by omega⟩
      cases l with
      | nil => rw [List.replicate_succ] at h; exact absurd h (by simp [isPre])
      | cons y l' =>
          rw [List.replicate_succ] at h ⊢
          rw [isPre] at h ⊢
          simp only [Bool.and_eq_true] at h ⊢
          exact ⟨h.1, ih u l' (by omega) h.2⟩

theorem isPre_all_zero : ∀ (l : List Nat) (n : Nat),
    isPre l (List.replicate n 0) = true → ∀ x ∈ l, x = 0 := by
  intro l
  induction l with
  | nil => intro n _ x hx; exact absurd hx (by simp)
  | cons y l' ih =>
      intro n h x hx
      obtain ⟨m, rfl⟩ : ∃ m, n = m + 1 := by
        cases n with
        | zero => exact absurd h (by simp [isPre])
        | succ m => exact ⟨m, rfl⟩
      rw [List.replicate_succ, isPre] at h
      simp only [Bool.and_eq_true, beq_iff_eq] at h
      rcases List.mem_cons.mp hx with rfl | hx'
      · exact h.1
      · exact ih m h.2 x hx'

theorem packPairs_has_nonzero (c : List Nat) (hne : c ≠ [])
    (hlast : c.getLast? ≠ some 0) : ∃ b ∈ packPairs c, b ≠ 0 := by
  induction c using packPairs.induct with
  | case1 a b t ih =>
      cases t with
      | nil =>
          refine ⟨a * 16 + b, by simp [packPairs], ?_⟩
          have hb : b ≠ 0 := fun h0 => hlast (by simp [h0])
          omega
      | cons w t' =>
          have hne' : w :: t' ≠ [] := by simp
          have hlast' : (w :: t').getLast? ≠ some 0 := by
            intro h0
            apply hlast
            rw [← h0]
            show (a :: b :: w :: t').getLast? = (w :: t').getLast?
            rfl
          obtain ⟨byte, hmem, hbne⟩ := ih hne' hlast'
          exact ⟨byte, by simp [packPairs, hmem], hbne⟩
  | case2 x =>
      have hx : x ≠ 0 := fun h0 => hlast (by simp [h0])
      exact ⟨x * 16, by simp [packPairs], by omega⟩
  | case3 => exact absurd rfl hne

theorem core_zeros_contra (c : List Nat) (hne : c ≠ []) (hlast : c.getLast? ≠ some 0)
    (ta n : Nat) (h : isPre (packPairs c ++ List.replicate ta 0)
      (List.replicate n 0) = true) : False := by
  obtain ⟨b, hmem, hbne⟩ := packPairs_has_nonzero c hne hlast
  have hall := isPre_all_zero _ n h
  exact hbne (hall b (by simp [hmem]))

theorem zeros_key_pre (c : List Nat) : ∀ (t s : Nat),
    isPre (List.replicate t 0) (packPairs c ++ List.replicate s 0) = true →
    isPre (List.replicate t 0) (c ++ List.replicate s 0) = true := by
  induction c using packPairs.induct with
  | case1 z w c' ih =>
      intro t s h
      cases t with
      | zero => rfl
      | succ t' =>
          rw [List.replicate_succ] at h ⊢
          have hh : packPairs (z :: w :: c') ++ List.replicate s 0 =
              (z * 16 + w) :: (packPairs c' ++ List.replicate s 0) := by
            simp [packPairs]
          rw [hh, isPre] at h
          simp only [Bool.and_eq_true, beq_iff_eq] at h
          have hz : z = 0 := by omega
          have hw : w = 0 := by omega
          have hr := ih t' s h.2
          subst hz
          subst hw
          show ((0 : Nat) == 0 && isPre (List.replicate t' 0)
            (0 :: (c' ++ List.replicate s 0))) = true
          simp only [beq_self_eq_true, Bool.true_and]
          cases t' with
          | zero => rfl
          | succ t'' =>
              rw [List.replicate_succ, isPre]
              simp only [Bool.and_eq_true, beq_self_eq_true, Bool.true_and]
              exact isPre_zeros_mono t'' (t'' + 1) _ (by omega) hr
  | case2 z =>
      intro t s h
      cases t with
      | zero => rfl
      | succ t' =>
          rw [List.replicate_succ] at h ⊢
          have hh : packPairs [z] ++ List.replicate s 0 =
              (z * 16) :: List.replicate s 0 := by simp [packPairs]
          rw [hh, isPre] at h
          simp only [Bool.and_eq_true, beq_iff_eq] at h
          have hz : z = 0 := by omega
          subst hz
          show ((0 : Nat) == 0 && isPre (List.replicate t' 0)
            ([] ++ List.replicate s 0)) = true
          simp only [beq_self_eq_true, Bool.true_and, List.nil_append]
          exact h.2
  | case3 =>
      intro t s h
      exact h

/-- Core induction for the amended C4: a byte-prefix relation between the
packed images `packPairs ca ++ 0^ta` and `packPairs cb ++ 0^tb` forces the
nibble-prefix relation between `ca ++ 0^ta` and `cb ++ 0^tb`, provided the
cores end in a non-zero nibble and all nibbles are below 16. -/
theorem pre_core (ca : List Nat) : ∀ (cb : List Nat) (ta tb : Nat),
    (∀ x ∈ ca, x < 16) → (∀ x ∈ cb, x < 16) →
    (ca = [] ∨ ca.getLast? ≠ some 0) → (cb = [] ∨ cb.getLast? ≠ some 0) →
    isPre (packPairs ca ++ List.replicate ta 0)
      (packPairs cb ++ List.replicate tb 0) = true →
    isPre (ca ++ List.replicate ta 0) (cb ++ List.replicate tb 0) = true := by
  induction ca using packPairs.induct with
  | case1 x y ca' ih =>
      intro cb ta tb hva hvb hia hib h
      have hca : ca' = [] ∨ ca'.getLast? ≠ some 0 := by
        rcases hia with h0 | h0
        · simp at h0
        · cases ca' with
          | nil => exact Or.inl rfl
          | cons w t' =>
              right
              intro hz
              apply h0
              rw [← hz]
              rfl
      have hha : packPairs (x :: y :: ca') ++ List.replicate ta 0 =
          (x * 16 + y) :: (packPairs ca' ++ List.replicate ta 0) := by
        simp [packPairs]
      rw [hha] at h
      match cb with
      | [] =>
          exfalso
          have hca' : ca' ≠ [] := by
            rcases hia with h0 | h0
            · simp at h0
            · intro hnil
              subst hnil
              apply h0
              have hy : (x :: y :: ([] : List Nat)).getLast? = some y := rfl
              rw [hy]
              -- y must be zero from the byte equation below
              simp only [packPairs, List.nil_append] at h
              cases tb with
              | zero => simp [isPre] at h
              | succ tb' =>
                  rw [List.replicate_succ, isPre] at h
                  simp only [Bool.and_eq_true, beq_iff_eq] at h
                  have : y = 0 := by omega
                  rw [this]
          simp only [packPairs, List.nil_append] at h
          cases tb with
          | zero => simp [isPre] at h
          | succ tb' =>
              rw [List.replicate_succ, isPre] at h
              simp only [Bool.and_eq_true, beq_iff_eq] at h
              rcases hca with h0 | h0
              · exact hca' h0
              · exact core_zeros_contra ca' hca' h0 ta tb' h.2
      | [w] =>
          exfalso
          have hhb : packPairs [w] ++ List.replicate tb 0 =
              (w * 16) :: List.replicate tb 0 := by simp [packPairs]
          rw [hhb, isPre] at h
          simp only [Bool.and_eq_true, beq_iff_eq] at h
          have hy0 : y = 0 := by
            have hy16 : y < 16 := hva y (by simp)
            omega
          have hca' : ca' ≠ [] := by
            rcases hia with h0 | h0
            · simp at h0
            · intro hnil
              subst hnil
              apply h0
              rw [hy0]
              rfl
          rcases hca with h0 | h0
          · exact hca' h0
          · exact core_zeros_contra ca' hca' h0 ta tb h.2
      | w :: z :: cb' =>
          have hcb : cb' = [] ∨ cb'.getLast? ≠ some 0 := by
            rcases hib with h0 | h0
            · simp at h0
            · cases cb' with
              | nil => exact Or.inl rfl
              | cons u t' =>
                  right
                  intro hz
                  apply h0
                  rw [← hz]
                  rfl
          have hhb : packPairs (w :: z :: cb') ++ List.replicate tb 0 =
              (w * 16 + z) :: (packPairs cb' ++ List.replicate tb 0) := by
            simp [packPairs]
          rw [hhb, isPre] at h
          simp only [Bool.and_eq_true, beq_iff_eq] at h
          have hy16 : y < 16 := hva y (by simp)
          have hz16 : z < 16 := hvb z (by simp)
          have hxw : x = w := by omega
          have hyz : y = z := by omega
          have hva' : ∀ u ∈ ca', u < 16 := fun u hu => hva u (by simp [hu])
          have hvb' : ∀ u ∈ cb', u < 16 := fun u hu => hvb u (by simp [hu])
          have hrec := ih cb' ta tb hva' hvb' hca hcb h.2
          show ((x == w) && isPre (y :: (ca' ++ List.replicate ta 0))
            (z :: (cb' ++ List.replicate tb 0))) = true
          rw [isPre]
          simp only [Bool.and_eq_true, beq_iff_eq]
          exact ⟨hxw, hyz, hrec⟩
  | case2 x =>
      intro cb ta tb hva hvb hia hib h
      have hx0 : x ≠ 0 := by
        rcases hia with h0 | h0
        · simp at h0
        · intro hx
          apply h0
          rw [hx]
          rfl
      have hha : packPairs [x] ++ List.replicate ta 0 =
          (x * 16) :: List.replicate ta 0 := by simp [packPairs]
      rw [hha] at h
      match cb with
      | [] =>
          exfalso
          simp only [packPairs, List.nil_append] at h
          cases tb with
          | zero => simp [isPre] at h
          | succ tb' =>
              rw [List.replicate_succ, isPre] at h
              simp only [Bool.and_eq_true, beq_iff_eq] at h
              exact hx0 (by omega)
      | [w] =>
          have hhb : packPairs [w] ++ List.replicate tb 0 =
              (w * 16) :: List.replicate tb 0 := by simp [packPairs]
          rw [hhb, isPre] at h
          simp only [Bool.and_eq_true, beq_iff_eq] at h
          have hxw : x = w := by omega
          show ((x == w) && isPre (List.replicate ta 0)
            ([] ++ List.replicate tb 0)) = true
          simp only [List.nil_append, Bool.and_eq_true, beq_iff_eq]
          exact ⟨hxw, h.2⟩
      | w :: z :: cb' =>
          have hhb : packPairs (w :: z :: cb') ++ List.replicate tb 0 =
              (w * 16 + z) :: (packPairs cb' ++ List.replicate tb 0) := by
            simp [packPairs]
          rw [hhb, isPre] at h
          simp only [Bool.and_eq_true, beq_iff_eq] at h
          have hz16 : z < 16 := hvb z (by simp)
          have hxw : x = w := by omega
          have hz0 : z = 0 := by omega
          have hzp := zeros_key_pre cb' ta tb h.2
          show ((x == w) && isPre (List.replicate ta 0)
            (z :: (cb' ++ List.replicate tb 0))) = true
          simp only [Bool.and_eq_true, beq_iff_eq]
          refine ⟨hxw, ?_⟩
          cases ta with
          | zero => rfl
          | succ ta' =>
              rw [List.replicate_succ, isPre]
              simp only [Bool.and_eq_true, beq_iff_eq]
              refine ⟨hz0.symm, ?_⟩
              exact isPre_zeros_mono ta' (ta' + 1) _ (by omega) hzp
  | case3 =>
      intro cb ta tb hva hvb hia hib h
      exact zeros_key_pre cb ta tb h

theorem coreOf_subset (l : List Nat) : ∀ x ∈ coreOf l, x ∈ l := by
  intro x hx
  rw [coreOf, List.mem_reverse] at hx
  have hsub : (l.reverse.dropWhile (fun v => v == 0)).Sublist l.reverse :=
    List.dropWhile_sublist _
  have : x ∈ l.reverse := hsub.mem hx
  rwa [List.mem_reverse] at this

theorem isPre_eq_of_length : ∀ (a b : List Nat), isPre a b = true →
    a.length = b.length → a = b := by
  intro a
  induction a with
  | nil =>
      intro b _ hlen
      cases b with
      | nil => rfl
      | cons y t => simp at hlen
  | cons x t ih =>
      intro b h hlen
      cases b with
      | nil => simp [isPre] at h
      | cons y u =>
          rw [isPre] at h
          simp only [Bool.and_eq_true, beq_iff_eq] at h
          have : t = u := ih u h.2 (by simpa using hlen)
          rw [h.1, this]

/-- C4 (amended): the byte-prefix relation between packed trie keys can
only arise from the nibble-prefix relation between the paths: if
`nibble_list_to_key a` is a byte-prefix of `nibble_list_to_key b`, then
`a` is a nibble-prefix of `b`; in particular packed keys of two distinct
positions at the same trie depth are never byte-prefix related.  (The
converse direction of the original claim is false; see the
counterexample.) -/
theorem nibble_list_to_key_pre_faithful (a b : List Nat)
    (hva : ∀ x ∈ a, x < 16) (hvb : ∀ x ∈ b, x < 16)
    (hla : a.length ≤ 64) (hlb : b.length ≤ 64)
    (h : isPre (nibble_list_to_key a) (nibble_list_to_key b) = true) :
    isPre a b = true ∧ (a.length = b.length → a = b) := by
  have hkeya : nibble_list_to_key a =
      packPairs (coreOf a) ++ List.replicate (termZeros a) 0 := by
    conv_lhs => rw [← coreOf_append_zeros a]
    exact key_core (coreOf a) (termZeros a) (coreOf_getLast a)
  have hkeyb : nibble_list_to_key b =
      packPairs (coreOf b) ++ List.replicate (termZeros b) 0 := by
    conv_lhs => rw [← coreOf_append_zeros b]
    exact key_core (coreOf b) (termZeros b) (coreOf_getLast b)
  rw [hkeya, hkeyb] at h
  have hpre := pre_core (coreOf a) (coreOf b) (termZeros a) (termZeros b)
    (fun x hx => hva x (coreOf_subset a x hx))
    (fun x hx => hvb x (coreOf_subset b x hx))
    (coreOf_getLast a) (coreOf_getLast b) h
  rw [coreOf_append_zeros a, coreOf_append_zeros b] at hpre
  exact ⟨hpre, fun hlen => isPre_eq_of_length a b hpre hlen⟩

end Structs

/-- Counterexample to C4 as stated: the nibble path `[1]` is a prefix of
`[1, 2]`, but `nibble_list_to_key [1] = [0x10]` is not a byte-prefix of
`nibble_list_to_key [1, 2] = [0x12]`, so the claimed equivalence fails in
the prefix-to-byte-prefix direction. -/
theorem nibble_list_to_key_iff_counterexample :
    Structs.isPre [1] [1, 2] = true ∧
      Structs.isPre (Structs.nibble_list_to_key [1])
        (Structs.nibble_list_to_key [1, 2]) = false := by
  decide

/-- Witness for the amended C4 at a concrete input: `[1, 2]` packs to a
byte-prefix of the image of `[1, 2, 3]`, and the theorem recovers the
nibble-prefix relation. -/
theorem nibble_list_to_key_pre_faithful_witness :
    Structs.isPre [1, 2] [1, 2, 3] = true ∧
      (([1, 2] : List Nat).length = ([1, 2, 3] : List Nat).length →
        ([1, 2] : List Nat) = [1, 2, 3]) :=
  Structs.nibble_list_to_key_pre_faithful [1, 2] [1, 2, 3]
    (by decide) (by decide) (by decide) (by decide) (by decide)

/-- Witness for C9: the round-trip theorem applied at a concrete branch
node with extension nibbles `[1, 2, 3]` and one three-byte subnode. -/
theorem internal_node_marshal_roundtrip_witness :
    Structs.InternalNode.unmarshal
        (Structs.InternalNode.marshal
          (Structs.InternalNode.Branch [1, 2, 3]
            [[1, 1, 1], [], [], [], [], [], [], [], [], [], [], [], [], [], [], []])) =
      Structs.InternalNode.Branch [1, 2, 3]
        [[1, 1, 1], [], [], [], [], [], [], [], [], [], [], [], [], [], [], []] :=
  Structs.internal_node_marshal_roundtrip _ ⟨by decide, by decide, by decide, by decide⟩

/-- Witness for C10: the account round-trip theorem applied at a concrete
account whose code hash differs from the empty-code hash. -/
theorem account_marshal_roundtrip_witness :
    Structs.Account.unmarshal (List.replicate 32 0)
        (Structs.Account.marshal (List.replicate 32 0)
          ⟨5, 1000, List.replicate 32 7⟩) =
      ⟨5, 1000, List.replicate 32 7⟩ :=
  Structs.account_marshal_roundtrip (List.replicate 32 0) ⟨5, 1000, List.replicate 32 7⟩
    (by norm_num) (by norm_num) (by simp)

/-- Association-list store: the single sorted byte-keyed table, modelled
by key-value pairs with exact-key lookup. -/
def alistGet {α : Type} : List (List Nat × α) → List Nat → Option α
  | [], _ => none
  | (k, v) :: rest, key => if k == key then some v else alistGet rest key

/-- Insert or replace a binding. -/
def alistPut {α : Type} (l : List (List Nat × α)) (key : List Nat) (v : α) :
    List (List Nat × α) :=
  (key, v) :: l.filter (fun kv => kv.1 != key)

/-- Remove a binding. -/
def alistDel {α : Type} (l : List (List Nat × α)) (key : List Nat) :
    List (List Nat × α) :=
  l.filter (fun kv => kv.1 != key)

theorem alistGet_put {α : Type} (l : List (List Nat × α)) (key : List Nat) (v : α) :
    alistGet (alistPut l key v) key = some v := by
  simp [alistPut, alistGet]

namespace OldLib

/-- Embeds `lib.rs::DB_VERSION = b"2"` (ASCII `2` is byte 50). -/
def DB_VERSION : List Nat := [50]

/-- Embeds the version handshake of `lib.rs::DB::open_internal`: a missing
stored version is accepted only when creating; a present version must equal
`DB_VERSION`; on success `set_metadata(b"version", DB_VERSION)` leaves
`DB_VERSION` stored, which is the returned value. -/
def open_internal_version (stored : Option (List Nat))
    (create_if_not_existing : Bool) : Except String (List Nat) :=
  match stored with
  | none =>
      if create_if_not_existing then .ok DB_VERSION
      else .error "Database missing version"
  | some version =>
      if version == DB_VERSION then .ok DB_VERSION
      else .error "Wrong DB_VERSION"

/-- Embeds `lib.rs::get_internal_key`: the nibble expansion of the
Keccak-256 hash of the input; `kec` is the external hash primitive. -/
def nibbleExpand : List Nat → List Nat
  | [] => []
  | b :: rest => b / 16 :: b % 16 :: nibbleExpand rest

def get_internal_key (kec : List Nat → List Nat) (bytes : List Nat) : List Nat :=
  nibbleExpand (kec bytes)

/-- Embeds `lib.rs::MutableTransaction::get_account_optional`: the staged
accounts overlay is consulted first; otherwise the backend is read at key
`[0x00] ‖ get_internal_key(address)` (the `vec![0]` tag of the source).
The stored record's bytes stand for the decoded account. -/
def get_account_optional (accounts : List (List Nat × Option (List Nat)))
    (store : List (List Nat × List Nat)) (kec : List Nat → List Nat)
    (address : List Nat) : Option (List Nat) :=
  match alistGet accounts address with
  | some acct => acct
  | none => alistGet store (0 :: get_internal_key kec address)

/-- The account-record flush of `lib.rs::MutableTransaction::state_root`:
a staged account is written at key `[0x01] ‖ get_internal_key(address)`. -/
def flush_account_record (store : List (List Nat × List Nat))
    (kec : List Nat → List Nat) (address : List Nat) (value : List Nat) :
    List (List Nat × List Nat) :=
  alistPut store (1 :: get_internal_key kec address) value

/-- Staged per-transaction state of `lib.rs::MutableTransaction`:
`accounts` maps addresses to staged accounts (`none` = staged deletion),
`storage` maps addresses to staged slot maps. -/
structure TxState where
  accounts : List (List Nat × Option (List Nat))
  storage : List (List Nat × List (List Nat × List Nat))
deriving DecidableEq, Repr

/-- Embeds `lib.rs::MutableTransaction::set_account`. -/
def set_account (st : TxState) (address : List Nat) (account : Option (List Nat)) :
    TxState :=
  { st with accounts := alistPut st.accounts address account }

/-- Embeds `lib.rs::MutableTransaction::set_storage`: when a staged slot
map for the address already exists the slot is recorded unconditionally;
otherwise the account is resolved, its presence required, the account
re-staged, and a fresh slot map created. -/
def set_storage (st : TxState) (store : List (List Nat × List Nat))
    (kec : List Nat → List Nat) (address slotKey value : List Nat) :
    Except String TxState :=
  match alistGet st.storage address with
  | some map =>
      .ok { st with storage := alistPut st.storage address (alistPut map slotKey value) }
  | none =>
      match get_account_optional st.accounts store kec address with
      | none => .error "Attempted to set storage on non-existent account"
      | some acct =>
          let st' := set_account st address (some acct)
          .ok { st' with storage := alistPut st'.storage address (alistPut [] slotKey value) }

/-- The staged slot value visible for `addr`/`slot` in a `set_storage`
result, `none` when the call failed or nothing is staged. -/
def storageOf (r : Except String TxState) (address slotKey : List Nat) :
    Option (List Nat) :=
  match r with
  | .ok st =>
      match alistGet st.storage address with
      | some map => alistGet map slotKey
      | none => none
  | .error _ => none

end OldLib

/-- Degenerate stand-in for the external Keccak-256 primitive, used only to
close concrete statements; the paths exercised never inspect hash output. -/
def kecZ : List Nat → List Nat := fun _ => List.replicate 32 0

/-- C8 counterexample: opening with stored version ASCII `"2"` (byte 50)
succeeds although `"2" ≠ "0"`, and opening with stored version ASCII `"0"`
(byte 48) fails — the claim has the accepted version string wrong. -/
theorem db_version_counterexample :
    (OldLib.open_internal_version (some [50]) false).isOk = true ∧
      (OldLib.open_internal_version (some [48]) false).isOk = false ∧
      OldLib.DB_VERSION ≠ [48] := by
  decide

/-- C8 (amended): opening an existing database succeeds exactly when the
stored metadata key `version` equals the ASCII string `"2"` (byte 50), any
other stored version fails with an error, and on first creation the stored
version is set to ASCII `"2"`; opening a non-created database with no
stored version fails. -/
theorem open_internal_version_spec (v : List Nat) (c : Bool) :
    (OldLib.open_internal_version (some v) c = .ok OldLib.DB_VERSION ↔
      v = OldLib.DB_VERSION) ∧
    (v ≠ OldLib.DB_VERSION → (OldLib.open_internal_version (some v) c).isOk = false) ∧
    OldLib.open_internal_version none true = .ok OldLib.DB_VERSION ∧
    OldLib.open_internal_version none false = .error "Database missing version" := by
  refine ⟨?_, ?_, rfl, rfl⟩
  · unfold OldLib.open_internal_version
    by_cases hv : v = OldLib.DB_VERSION
    · simp [hv]
    · have hb : (v == OldLib.DB_VERSION) = false := beq_eq_false_iff_ne.mpr hv
      simp [hb, hv]
  · intro hv
    unfold OldLib.open_internal_version
    have hb : (v == OldLib.DB_VERSION) = false := beq_eq_false_iff_ne.mpr hv
    simp [hb, Except.isOk, Except.toBool]

/-- Witness for the amended C8: stored version ASCII `"0"` is rejected. -/
theorem open_internal_version_spec_witness :
    (OldLib.open_internal_version (some [48]) true).isOk = false :=
  (open_internal_version_spec [48] true).2.1 (by decide)

/-- C6: the account read key does not match the claim and does not match
the write key.  For every hash function and address, the record flushed by
`state_root` at `[0x01] ‖ nibbles(keccak(address))` is invisible to
`get_account_optional`, which reads `[0x00] ‖ nibbles(keccak(address))`,
a key that also differs from the claimed `[0x01] ‖ address`. -/
theorem account_read_key_mismatch (kec : List Nat → List Nat) (address v : List Nat) :
    OldLib.get_account_optional []
        (OldLib.flush_account_record [] kec address v) kec address = none ∧
      (0 :: OldLib.get_internal_key kec address) ≠ 1 :: address := by
  constructor
  · show (match alistGet ([] : List (List Nat × Option (List Nat))) address with
      | some acct => acct
      | none => alistGet (OldLib.flush_account_record [] kec address v)
          (0 :: OldLib.get_internal_key kec address)) = none
    show alistGet (OldLib.flush_account_record [] kec address v)
      (0 :: OldLib.get_internal_key kec address) = none
    show alistGet [(1 :: OldLib.get_internal_key kec address, v)]
      (0 :: OldLib.get_internal_key kec address) = none
    rw [alistGet]
    have hne : ((1 :: OldLib.get_internal_key kec address) ==
        (0 :: OldLib.get_internal_key kec address)) = false := by
      apply beq_eq_false_iff_ne.mpr
      simp
    rw [hne]
    simp [alistGet]
  · intro h
    have := List.head_eq_of_cons_eq h
    omega

/-- The reachable state used to refute C7: the account at address `[7]` is
first staged, a slot is set (creating the staged slot map), and the account
is then staged as deleted. -/
def c7state : OldLib.TxState :=
  OldLib.set_account
    ((OldLib.set_storage (OldLib.set_account ⟨[], []⟩ [7] (some [1]))
        [] kecZ [7] [2] [3]).toOption.getD ⟨[], []⟩)
    [7] none

/-- C7 counterexample: in the state `c7state`, address `[7]` has no
existing account (the overlay stages its deletion and the backend is
empty), yet `set_storage` succeeds and records the slot, because a staged
slot map for the address already exists. -/
theorem set_storage_counterexample :
    OldLib.get_account_optional c7state.accounts [] kecZ [7] = none ∧
      OldLib.storageOf (OldLib.set_storage c7state [] kecZ [7] [4] [5]) [7] [4] =
        some [5] := by
  decide

/-- C7 (amended): `set_storage(addr, slot, value)` fails — and stages no
slot record — exactly when no slot for `addr` has been staged yet in this
transaction AND the account resolves to nothing (neither staged in the
accounts overlay nor decodable from the backend); in that case the error
is the source's message.  When a staged slot map for `addr` already exists
the call succeeds unconditionally, returning the state with the slot added
to that map (the account is never consulted).  In every success case the
slot is recorded in the staged storage map. -/
theorem set_storage_spec (st : OldLib.TxState) (store : List (List Nat × List Nat))
    (kec : List Nat → List Nat) (address slotKey value : List Nat) :
    ((OldLib.set_storage st store kec address slotKey value).isOk = false ↔
      (alistGet st.storage address = none ∧
        OldLib.get_account_optional st.accounts store kec address = none)) ∧
    (alistGet st.storage address = none →
      OldLib.get_account_optional st.accounts store kec address = none →
      OldLib.set_storage st store kec address slotKey value =
        .error "Attempted to set storage on non-existent account") ∧
    (∀ map, alistGet st.storage address = some map →
      OldLib.set_storage st store kec address slotKey value =
        .ok { st with storage := (alistPut st.storage address
          (alistPut map slotKey value)) }) ∧
    (∀ st', OldLib.set_storage st store kec address slotKey value = .ok st' →
      OldLib.storageOf (.ok st') address slotKey = some value) := by
  have herr : alistGet st.storage address = none →
      OldLib.get_account_optional st.accounts store kec address = none →
      OldLib.set_storage st store kec address slotKey value =
        .error "Attempted to set storage on non-existent account" := by
    intro hmap hacct
    unfold OldLib.set_storage
    rw [hmap, hacct]
  have hok : ∀ map, alistGet st.storage address = some map →
      OldLib.set_storage st store kec address slotKey value =
        .ok { st with storage := (alistPut st.storage address
          (alistPut map slotKey value)) } := by
    intro map hmap
    unfold OldLib.set_storage
    rw [hmap]
  refine ⟨⟨?_, ?_⟩, herr, hok, ?_⟩
  · intro h
    cases hmap : alistGet st.storage address with
    | some map =>
        rw [hok map hmap] at h
        exact absurd h (by simp [Except.isOk, Except.toBool])
    | none =>
        cases hacct : OldLib.get_account_optional st.accounts store kec address with
        | some acct =>
            unfold OldLib.set_storage at h
            rw [hmap, hacct] at h
            exact absurd h (by simp [Except.isOk, Except.toBool])
        | none => exact ⟨rfl, rfl⟩
  · intro hc
    rw [herr hc.1 hc.2]
    rfl
  · intro st' h
    unfold OldLib.set_storage at h
    cases hmap : alistGet st.storage address with
    | some map =>
        rw [hmap] at h
        simp only [Except.ok.injEq] at h
        subst h
        unfold OldLib.storageOf
        simp [alistGet_put]
    | none =>
        rw [hmap] at h
        cases hacct : OldLib.get_account_optional st.accounts store kec address with
        | none => rw [hacct] at h; exact absurd h (by simp)
        | some acct =>
            rw [hacct] at h
            simp only [Except.ok.injEq] at h
            subst h
            unfold OldLib.storageOf
            simp [alistGet_put]

/-- Witness for the amended C7: on a fresh transaction over an empty
backend, setting storage for an address with no account fails; in the
state `c7state`, whose slot map for address `[7]` is already staged while
the account is staged as deleted, the call succeeds unconditionally and
records the slot. -/
theorem set_storage_spec_witness :
    OldLib.set_storage ⟨[], []⟩ [] kecZ [7] [2] [3] =
      .error "Attempted to set storage on non-existent account" ∧
    OldLib.set_storage c7state [] kecZ [7] [4] [5] =
      .ok { c7state with storage := (alistPut c7state.storage [7]
        (alistPut [([2], [3])] [4] [5])) } :=
  ⟨(set_storage_spec ⟨[], []⟩ [] kecZ [7] [2] [3]).2.1 (by decide) (by decide),
   (set_storage_spec c7state [] kecZ [7] [4] [5]).2.2.1 [([2], [3])] (by decide)⟩

namespace Backend

/-- Byte-string order of the overlay `BTreeMap` and of the durable store:
lexicographic on bytes, a proper prefix ordering before its extensions. -/
def lexLtB : List Nat → List Nat → Bool
  | [], [] => false
  | [], _ :: _ => true
  | _ :: _, [] => false
  | a :: as, b :: bs => Nat.blt a b || (a == b && lexLtB as bs)

/-- The in-memory overlay: a sorted association list from keys to
`Option` values (`none` is a tombstone), mirroring
`BTreeMap<ArrayVec<u8, 96>, Option<SmallVec<u8>>>`. -/
def Cache : Type := List (List Nat × Option (List Nat))

/-- The durable ordered map, a sorted association list of keys to values;
`none` models the pure in-memory backend (no durable layer). -/
def Disk : Type := Option (List (List Nat × List Nat))

/-- Embeds `BackendTransaction::get`: overlay value if the key is present
(tombstone suppresses the durable read), else the durable store's value. -/
def get (cache : Cache) (disk : Disk) (key : List Nat) : Option (List Nat) :=
  match alistGet cache key with
  | some v => v
  | none =>
      match disk with
      | none => none
      | some d => alistGet d key

/-- The overlay half of `BackendTransaction::clear_prefix`: collect the
keys of `cache.range((Excluded(prefix), Unbounded))` — on a sorted list,
everything after the entries `≤ prefix` — while they start with `prefix`,
then remove them. -/
def clear_prefix_cache (cache : Cache) (p : List Nat) : Cache :=
  let toDel := ((cache.dropWhile (fun kv => !(lexLtB p kv.1))).takeWhile
      (fun kv => Structs.isPre p kv.1)).map Prod.fst
  cache.filter (fun kv => !(toDel.contains kv.1))

/-- The durable-store sweep loop of `BackendTransaction::clear_prefix`,
with the cursor as an index into the current list.  Each iteration first
advances the cursor (`cursor.next()`), reads the current entry, stops when
it no longer starts with the prefix, and otherwise deletes it; after a
deletion the cursor logically precedes the deleted entry's successor. -/
def sweepLoop : Nat → List (List Nat × List Nat) → Nat → List Nat →
    List (List Nat × List Nat)
  | 0, disk, _, _ => disk
  | fuel + 1, disk, pos, p =>
      match disk.drop (pos + 1) with
      | [] => disk
      | (k, _) :: _ =>
          if Structs.isPre p k then
            sweepLoop fuel (disk.take (pos + 1) ++ disk.drop (pos + 2)) pos p
          else disk

/-- Embeds `BackendTransaction::clear_prefix`: the overlay sweep followed
by the cursor sweep from `set_range(prefix)` (the first key `≥ prefix`,
found by `findIdx?`); if no key is `≥ prefix` the function returns
early. -/
def clear_prefix (cache : Cache) (disk : Disk) (p : List Nat) : Cache × Disk :=
  let cache' := clear_prefix_cache cache p
  match disk with
  | none => (cache', none)
  | some d =>
      match List.findIdx? (fun kv => !(lexLtB kv.1 p)) d with
      | none => (cache', some d)
      | some i => (cache', some (sweepLoop (d.length + 1) d i p))

end Backend

/-- The backend state used to refute C2: the overlay holds key `[1]`, the
durable store holds `[1,0]` and `[1,1]`, and `clear_prefix([1])` is
invoked. -/
def c2res : Backend.Cache × Backend.Disk :=
  Backend.clear_prefix [([1], some [170])] (some [([1, 0], [7]), ([1, 1], [8])]) [1]

/-- C2: after `clear_prefix([1])`, the overlay entry at key `[1]` itself
survives (the overlay range excludes the key equal to the prefix), and the
first durable key `≥ [1]`, namely `[1,0]`, survives (the sweep advances
the cursor before its first read), so `get` still returns values for keys
that start with the prefix; only `[1,1]` is removed. -/
theorem clear_prefix_misses_keys :
    Backend.get c2res.1 c2res.2 [1] = some [170] ∧
      Backend.get c2res.1 c2res.2 [1, 0] = some [7] ∧
      Backend.get c2res.1 c2res.2 [1, 1] = none := by
  decide

namespace Walk

/-- Embeds `walk.rs::InternalNode`: the classical three-kind node used by
the walker.  Subnode references are byte strings; `none` is an absent
child. -/
inductive WNode where
  | Leaf (rest_of_key : List Nat) (value : List Nat)
  | Extension (key_segment : List Nat) (subnode : List Nat)
  | Branch (subnodes : List (Option (List Nat)))
deriving DecidableEq, Repr

/-- Embeds `util.rs::encode_nibble_list` (hex-prefix encoding). -/
def encode_nibble_list (nl : List Nat) (leafFlag : Bool) : List Nat :=
  if nl.length % 2 == 0 then
    (16 * 2 * (if leafFlag then 1 else 0)) :: Structs.packPairs nl
  else
    (16 * (2 * (if leafFlag then 1 else 0) + 1) + nl.headD 0) :: Structs.packPairs (nl.drop 1)

/-- RLP byte-string item. -/
def rlpStr (b : List Nat) : List Nat :=
  match b with
  | [x] => if x < 128 then [x] else [129, x]
  | _ =>
      if b.length < 56 then (128 + b.length) :: b
      else (183 + (Structs.natToBE b.length).length) :: (Structs.natToBE b.length ++ b)

/-- RLP list item from an already-encoded payload. -/
def rlpList (payload : List Nat) : List Nat :=
  if payload.length < 56 then (192 + payload.length) :: payload
  else (247 + (Structs.natToBE payload.length).length) :: (Structs.natToBE payload.length ++ payload)

def concatAll : List (List Nat) → List Nat
  | [] => []
  | x :: rest => x ++ concatAll rest

/-- Embeds the `Encodable` instance of `walk.rs::InternalNode`: leaf and
extension are two-item lists; a branch is a 17-item list whose short child
references are inlined raw and whose 32-byte references are strings. -/
def encodeNode : WNode → List Nat
  | .Leaf r v => rlpList (rlpStr (encode_nibble_list r true) ++ rlpStr v)
  | .Extension seg sub => rlpList (rlpStr (encode_nibble_list seg false) ++ rlpStr sub)
  | .Branch subs =>
      rlpList (concatAll (subs.map (fun s =>
        match s with
        | none => [128]
        | some data => if data.length < 32 then data else rlpStr data)) ++ [128])

/-- Embeds `walk.rs::EMPTY_TRIE_ROOT`
(`0x56e81f171bcc55a6ff8345e692c0f86e5b48e01b996cadc001622fb5e363b421`). -/
def EMPTY_TRIE_ROOT : List Nat :=
  [86, 232, 31, 23, 27, 204, 85, 166, 255, 131, 69, 230, 146, 192, 248, 110,
   91, 72, 224, 27, 153, 108, 173, 192, 1, 98, 47, 181, 227, 99, 180, 33]

/-- Embeds `util.rs::common_prefix`. -/
def commonPrefixLen : List Nat → List Nat → Nat
  | x :: xs, y :: ys => if x == y then 1 + commonPrefixLen xs ys else 0
  | _, _ => 0

/-- Walker state: the dirty list is consumed from the front (mirroring
`Vec::pop` from the back of the descending-sorted vector, so the head is
the next key in ascending order); the backend stores decoded nodes (its
byte image is `encodeNode`, whose decoding is the `Decodable` inverse);
`buffer` models `buffer[prefix_len..]` of the 128-byte scratch; `log` is a
ghost trace recording every `write_node` effect, newest first. -/
structure WalkSt where
  dirty : List (List Nat × Option (List Nat))
  store : List (List Nat × WNode)
  buffer : List Nat
  log : List (List Nat × Option WNode)
deriving DecidableEq, Repr

def setBuf (st : WalkSt) (i x : Nat) : WalkSt := { st with buffer := st.buffer.set i x }

def setBufRange (st : WalkSt) (i : Nat) (seg : List Nat) : WalkSt :=
  match seg with
  | [] => st
  | x :: rest => setBufRange (setBuf st i x) (i + 1) rest

/-- Embeds `Walker::get_node`: read the node at
`buffer[..prefix_len + depth]`, that is `pfx ++ buffer.take depth`. -/
def get_node (pfx : List Nat) (depth : Nat) (st : WalkSt) : Option WNode :=
  alistGet st.store (pfx ++ st.buffer.take depth)

/-- Embeds `Walker::write_node`: `none` deletes the position
(`cursor_delete`), `some` stores the node's encoding and returns the
subnode reference — the raw encoding when shorter than 32 bytes, else its
Keccak hash (`kec`).  Every call is recorded in the ghost log. -/
def write_node (kec : List Nat → List Nat) (pfx : List Nat) (depth : Nat)
    (node : Option WNode) (st : WalkSt) : Option (List Nat) × WalkSt :=
  let key := pfx ++ st.buffer.take depth
  match node with
  | none =>
      (none, { st with store := alistDel st.store key, log := (key, none) :: st.log })
  | some n =>
      let enc := encodeNode n
      (some (if enc.length < 32 then enc else kec enc),
        { st with store := alistPut st.store key n, log := (key, some n) :: st.log })

/-- The loop guard of `walk_node` and `walk_branch`: does the next dirty
key start with the current path `buffer[prefix_len..prefix_len+depth]`? -/
def dirtyTopMatches (st : WalkSt) (depth : Nat) : Bool :=
  match st.dirty with
  | [] => false
  | (k, _) :: _ => Structs.isPre (st.buffer.take depth) k

/-- Embeds `Walker::walk_empty`: pop the next dirty entry; a deletion
leaves the position empty, an insertion produces a leaf for the remaining
key. -/
def walk_empty (depth : Nat) (st : WalkSt) : Except String (Option WNode × WalkSt) :=
  match st.dirty with
  | [] => .error "walk_empty: dirty list empty"
  | (key, value) :: rest =>
      .ok (match value with
        | none => none
        | some v => some (.Leaf (key.drop depth) v), { st with dirty := rest })

/-- Embeds `Walker::make_extension`.  Non-recursive: it only issues
`write_node` calls.  The extension segment bytes are
`buffer[prefix_len+depth .. prefix_len+depth+segLen]`. -/
def make_extension (kec : List Nat → List Nat) (pfx : List Nat) (depth segLen : Nat)
    (node : Option WNode) (st : WalkSt) : Option WNode × WalkSt :=
  if segLen == 0 then (node, st)
  else
    let seg := (st.buffer.drop depth).take segLen
    match node with
    | none =>
        let r := write_node kec pfx (depth + segLen) none st
        (none, r.2)
    | some (.Leaf rest v) =>
        let r := write_node kec pfx (depth + segLen) none st
        (some (.Leaf (seg ++ rest) v), r.2)
    | some (.Extension s sub) =>
        let r := write_node kec pfx (depth + segLen) none st
        (some (.Extension (seg ++ s) sub), r.2)
    | some (.Branch subs) =>
        let r := write_node kec pfx (depth + segLen) (some (.Branch subs)) st
        (some (.Extension seg (r.1.getD [])), r.2)

/-- The child-counting loop at the end of `walk_branch`. -/
def countSome : List (Option (List Nat)) → Nat
  | [] => 0
  | some _ :: rest => 1 + countSome rest
  | none :: rest => countSome rest

/-- The surviving child index computed by the same loop (the index of the
last present child, matching the source's repeated overwrite). -/
def lastSomeIdxAux : List (Option (List Nat)) → Nat → Nat → Nat
  | [], _, acc => acc
  | x :: rest, i, acc => lastSomeIdxAux rest (i + 1) (if x.isSome then i else acc)

def lastSomeIdx (l : List (Option (List Nat))) : Nat := lastSomeIdxAux l 0 0

mutual

/-- Embeds `Walker::walk`: load the node at the current position and walk
it. -/
def walk (fuel : Nat) (kec : List Nat → List Nat) (pfx : List Nat) (depth : Nat)
    (st : WalkSt) : Except String (Option WNode × WalkSt) :=
  match fuel with
  | 0 => .error "out of fuel"
  | f + 1 => walk_node f kec pfx depth (get_node pfx depth st) st

/-- The shape dispatch in the body of `Walker::walk_node`'s while loop. -/
def walk_dispatch (fuel : Nat) (kec : List Nat → List Nat) (pfx : List Nat)
    (depth : Nat) (cur : Option WNode) (st : WalkSt) :
    Except String (Option WNode × WalkSt) :=
  match cur with
  | none => walk_empty depth st
  | some (.Leaf r v) => walk_leaf fuel kec pfx depth r v st
  | some (.Extension s sub) => walk_extension fuel kec pfx depth s sub st
  | some (.Branch subs) => walk_branch fuel kec pfx depth subs st

/-- Embeds `Walker::walk_node`: while the next dirty key lies under the
current position, dispatch on the current node's shape. -/
def walk_node (fuel : Nat) (kec : List Nat → List Nat) (pfx : List Nat) (depth : Nat)
    (cur : Option WNode) (st : WalkSt) : Except String (Option WNode × WalkSt) :=
  match fuel with
  | 0 => .error "out of fuel"
  | f + 1 =>
      if dirtyTopMatches st depth then
        match walk_dispatch f kec pfx depth cur st with
        | .error e => .error e
        | .ok r => walk_node f kec pfx depth r.1 r.2
      else .ok (cur, st)

/-- Embeds `Walker::walk_leaf`: replace or delete on an exact key match,
otherwise split the leaf under a fresh branch at the shared prefix. -/
def walk_leaf (fuel : Nat) (kec : List Nat → List Nat) (pfx : List Nat) (depth : Nat)
    (rest_of_key value : List Nat) (st : WalkSt) :
    Except String (Option WNode × WalkSt) :=
  match fuel with
  | 0 => .error "out of fuel"
  | f + 1 =>
      match st.dirty with
      | [] => .error "walk_leaf: dirty list empty"
      | (key, new_value) :: restD =>
          let cpl := commonPrefixLen rest_of_key (key.drop depth)
          if cpl == rest_of_key.length then
            .ok (match new_value with
              | none => none
              | some nv => some (.Leaf rest_of_key nv), { st with dirty := restD })
          else
            let leaf_node := some (WNode.Leaf (rest_of_key.drop (cpl + 1)) value)
            let st1 := setBufRange st depth ((key.drop depth).take cpl)
            match make_branch f kec pfx (depth + cpl) (rest_of_key.getD cpl 0)
                leaf_node st1 with
            | .error e => .error e
            | .ok r => .ok (make_extension kec pfx depth cpl r.1 r.2)

/-- Embeds `Walker::walk_extension`: descend when the dirty key follows
the whole segment, else split the extension at the shared prefix. -/
def walk_extension (fuel : Nat) (kec : List Nat → List Nat) (pfx : List Nat)
    (depth : Nat) (key_segment subnode : List Nat) (st : WalkSt) :
    Except String (Option WNode × WalkSt) :=
  match fuel with
  | 0 => .error "out of fuel"
  | f + 1 =>
      let st1 := setBufRange st depth key_segment
      match st1.dirty with
      | [] => .error "walk_extension: dirty list empty"
      | (key, _) :: _ =>
          let cpl := commonPrefixLen key_segment (key.drop depth)
          if cpl == key_segment.length then
            match walk f kec pfx (depth + key_segment.length) st1 with
            | .error e => .error e
            | .ok r => .ok (make_extension kec pfx depth key_segment.length r.1 r.2)
          else
            let index := key_segment.getD cpl 0
            let seg2len := key_segment.length - cpl - 1
            match
              (if seg2len == 0 then
                walk_branch f kec pfx (depth + cpl)
                  ((List.replicate 16 none).set index (some subnode)) st1
              else
                make_branch f kec pfx (depth + cpl) index
                  (some (WNode.Extension (key_segment.drop (cpl + 1)) subnode)) st1) with
            | .error e => .error e
            | .ok r => .ok (make_extension kec pfx depth cpl r.1 r.2)

/-- The dirty-consuming loop of `Walker::walk_branch`: for each dirty key
under this position, set the branch nibble in the buffer, walk the child,
persist it, and record the returned reference. -/
def walk_branch_loop (fuel : Nat) (kec : List Nat → List Nat) (pfx : List Nat)
    (depth : Nat) (subnodes : List (Option (List Nat))) (st : WalkSt) :
    Except String (List (Option (List Nat)) × WalkSt) :=
  match fuel with
  | 0 => .error "out of fuel"
  | f + 1 =>
      if dirtyTopMatches st depth then
        match st.dirty with
        | [] => .error "walk_branch: dirty list empty"
        | (key, _) :: _ =>
            let index := key.getD depth 0
            let st1 := setBuf st depth index
            match walk f kec pfx (depth + 1) st1 with
            | .error e => .error e
            | .ok r =>
                let w := write_node kec pfx (depth + 1) r.1 r.2
                walk_branch_loop f kec pfx depth (subnodes.set index w.1) w.2
      else .ok (subnodes, st)

/-- Embeds `Walker::walk_branch`: run the loop, then collapse an empty
branch to nothing, raise a single surviving child through
`make_extension`, and keep a branch with at least two children. -/
def walk_branch (fuel : Nat) (kec : List Nat → List Nat) (pfx : List Nat)
    (depth : Nat) (subnodes : List (Option (List Nat))) (st : WalkSt) :
    Except String (Option WNode × WalkSt) :=
  match fuel with
  | 0 => .error "out of fuel"
  | f + 1 =>
      match walk_branch_loop f kec pfx depth subnodes (setBuf st depth 0) with
      | .error e => .error e
      | .ok r =>
          let subs := r.1
          let st1 := r.2
          if countSome subs == 0 then .ok (none, st1)
          else if countSome subs == 1 then
            let st2 := setBuf st1 depth (lastSomeIdx subs)
            .ok (make_extension kec pfx depth 1 (get_node pfx (depth + 1) st2) st2)
          else .ok (some (.Branch subs), st1)

/-- Embeds `Walker::make_branch`: a fresh 16-slot vector with the given
node persisted at `index`, handed to `walk_branch`. -/
def make_branch (fuel : Nat) (kec : List Nat → List Nat) (pfx : List Nat)
    (depth : Nat) (index : Nat) (node : Option WNode) (st : WalkSt) :
    Except String (Option WNode × WalkSt) :=
  match fuel with
  | 0 => .error "out of fuel"
  | f + 1 =>
      let st1 := setBuf st depth index
      let w := write_node kec pfx (depth + 1) node st1
      walk_branch f kec pfx depth ((List.replicate 16 none).set index w.1) w.2

end

/-- Embeds `Walker::root`: walk from the empty path, persist the root,
and produce the trie root hash; an empty trie yields
`EMPTY_TRIE_ROOT`. -/
def root (fuel : Nat) (kec : List Nat → List Nat) (pfx : List Nat) (st : WalkSt) :
    Except String (List Nat × WalkSt) :=
  match walk fuel kec pfx 0 st with
  | .error e => .error e
  | .ok r =>
      let w := write_node kec pfx 0 r.1 r.2
      .ok (match w.1 with
        | some ref => if ref.length < 32 then kec ref else ref
        | none => EMPTY_TRIE_ROOT, w.2)

/-- Branch nodes must keep at least two children; other nodes are
unconstrained.  This is the persistence invariant claim C3 asserts. -/
def nodeOk : WNode → Prop
  | .Branch subs => 2 ≤ countSome subs
  | _ => True

def optOk : Option WNode → Prop
  | none => True
  | some n => nodeOk n

def storeOk (st : WalkSt) : Prop := ∀ k n, alistGet st.store k = some n → nodeOk n

def logOk (st : WalkSt) : Prop := ∀ k n, (k, some n) ∈ st.log → nodeOk n

def invOk (st : WalkSt) : Prop := storeOk st ∧ logOk st

theorem alistGet_filter_ne {α : Type} (l : List (List Nat × α)) (key k : List Nat) :
    alistGet (l.filter (fun kv => kv.1 != key)) k =
      if k == key then none else alistGet l k := by
  induction l with
  | nil =>
      by_cases h : k = key <;> simp [alistGet, h]
  | cons ab rest ih =>
      obtain ⟨a, b⟩ := ab
      rw [List.filter_cons]
      by_cases hak : a = key
      · subst hak
        simp only [bne_self_eq_false, Bool.false_eq_true, if_false]
        rw [ih]
        by_cases hk : k = a
        · simp [hk]
        · have h1 : (k == a) = false := beq_eq_false_iff_ne.mpr hk
          have h2 : (a == k) = false := beq_eq_false_iff_ne.mpr (fun h => hk h.symm)
          simp [h1, h2, alistGet]
      · have hne : (a != key) = true := bne_iff_ne.mpr hak
        simp only [hne, if_true]
        rw [alistGet, ih, alistGet]
        by_cases hk : k = key
        · subst hk
          have h2 : (a == k) = false := beq_eq_false_iff_ne.mpr hak
          simp [h2]
        · have h1 : (k == key) = false := beq_eq_false_iff_ne.mpr hk
          simp [h1]

theorem alistGet_del_eq {α : Type} (l : List (List Nat × α)) (key k : List Nat) :
    alistGet (alistDel l key) k = if k == key then none else alistGet l k :=
  alistGet_filter_ne l key k

theorem alistGet_put_eq {α : Type} (l : List (List Nat × α)) (key k : List Nat) (v : α) :
    alistGet (alistPut l key v) k = if k == key then some v else alistGet l k := by
  show alistGet ((key, v) :: l.filter (fun kv => kv.1 != key)) k = _
  rw [alistGet, alistGet_filter_ne]
  by_cases hk : k = key
  · simp [hk]
  · have hbk : (k == key) = false := beq_eq_false_iff_ne.mpr hk
    have hka : (key == k) = false := beq_eq_false_iff_ne.mpr (fun h0 => hk h0.symm)
    simp [hbk, hka]

theorem write_node_inv (kec : List Nat → List Nat) (pfx : List Nat) (depth : Nat)
    (node : Option WNode) (st : WalkSt) (hinv : invOk st) (hn : optOk node) :
    invOk (write_node kec pfx depth node st).2 := by
  obtain ⟨hs, hl⟩ := hinv
  cases node with
  | none =>
      constructor
      · intro k n h
        rw [write_node] at h
        simp only at h
        rw [alistGet_del_eq] at h
        by_cases hk : (k == pfx ++ st.buffer.take depth) = true
        · rw [if_pos hk] at h; exact absurd h (by simp)
        · rw [if_neg hk] at h; exact hs k n h
      · intro k n h
        rw [write_node] at h
        simp only [List.mem_cons] at h
        rcases h with h | h
        · exact absurd h (by simp)
        · exact hl k n h
  | some m =>
      constructor
      · intro k n h
        rw [write_node] at h
        simp only at h
        rw [alistGet_put_eq] at h
        by_cases hk : (k == pfx ++ st.buffer.take depth) = true
        · rw [if_pos hk] at h
          have : m = n := by
            have := Option.some.inj h
            exact this
          rw [← this]
          exact hn
        · rw [if_neg hk] at h; exact hs k n h
      · intro k n h
        rw [write_node] at h
        simp only [List.mem_cons] at h
        rcases h with h | h
        · have hmn : n = m := by
            have h2 := (Prod.mk.injEq _ _ _ _).mp h
            exact Option.some.inj h2.2
          rw [hmn]
          exact hn
        · exact hl k n h

theorem invOk_setBuf (st : WalkSt) (i x : Nat) (h : invOk st) : invOk (setBuf st i x) := h

theorem invOk_setBufRange (seg : List Nat) : ∀ (st : WalkSt) (i : Nat),
    invOk st → invOk (setBufRange st i seg) := by
  induction seg with
  | nil => intro st i h; exact h
  | cons x rest ih =>
      intro st i h
      rw [setBufRange]
      exact ih (setBuf st i x) (i + 1) (invOk_setBuf st i x h)

theorem get_node_ok (pfx : List Nat) (depth : Nat) (st : WalkSt) (hs : storeOk st) :
    optOk (get_node pfx depth st) := by
  rw [get_node]
  cases h : alistGet st.store (pfx ++ st.buffer.take depth) with
  | none => trivial
  | some n => exact hs _ n h

theorem walk_empty_inv (depth : Nat) (st : WalkSt) (r : Option WNode × WalkSt)
    (hinv : invOk st) (h : walk_empty depth st = .ok r) : optOk r.1 ∧ invOk r.2 := by
  rw [walk_empty] at h
  cases hd : st.dirty with
  | nil => rw [hd] at h; exact absurd h (by simp)
  | cons kv rest =>
      obtain ⟨key, value⟩ := kv
      rw [hd] at h
      simp only [Except.ok.injEq] at h
      subst h
      refine ⟨?_, hinv⟩
      cases value with
      | none => trivial
      | some v => trivial

theorem make_extension_inv (kec : List Nat → List Nat) (pfx : List Nat)
    (depth segLen : Nat) (node : Option WNode) (st : WalkSt)
    (hinv : invOk st) (hn : optOk node) :
    optOk (make_extension kec pfx depth segLen node st).1 ∧
      invOk (make_extension kec pfx depth segLen node st).2 := by
  rw [make_extension]
  by_cases h0 : (segLen == 0) = true
  · rw [if_pos h0]
    exact ⟨hn, hinv⟩
  · rw [if_neg h0]
    cases node with
    | none =>
        exact ⟨trivial, write_node_inv kec pfx (depth + segLen) none st hinv trivial⟩
    | some n =>
        cases n with
        | Leaf rest v =>
            exact ⟨trivial, write_node_inv kec pfx (depth + segLen) none st hinv trivial⟩
        | Extension s sub =>
            exact ⟨trivial, write_node_inv kec pfx (depth + segLen) none st hinv trivial⟩
        | Branch subs =>
            exact ⟨trivial,
              write_node_inv kec pfx (depth + segLen) (some (.Branch subs)) st hinv hn⟩

theorem walk_all_inv : ∀ (f : Nat),
    (∀ (kec : List Nat → List Nat) (pfx : List Nat) (depth : Nat) (st : WalkSt)
      (r : Option WNode × WalkSt), invOk st → walk f kec pfx depth st = .ok r →
        optOk r.1 ∧ invOk r.2) ∧
    (∀ kec pfx depth (cur : Option WNode) st r, invOk st → optOk cur →
      walk_node f kec pfx depth cur st = .ok r → optOk r.1 ∧ invOk r.2) ∧
    (∀ kec pfx depth (rk v : List Nat) st r, invOk st →
      walk_leaf f kec pfx depth rk v st = .ok r → optOk r.1 ∧ invOk r.2) ∧
    (∀ kec pfx depth (seg sub : List Nat) st r, invOk st →
      walk_extension f kec pfx depth seg sub st = .ok r → optOk r.1 ∧ invOk r.2) ∧
    (∀ kec pfx depth (subs : List (Option (List Nat))) st
      (r : List (Option (List Nat)) × WalkSt), invOk st →
      walk_branch_loop f kec pfx depth subs st = .ok r → invOk r.2) ∧
    (∀ kec pfx depth (subs : List (Option (List Nat))) st r, invOk st →
      walk_branch f kec pfx depth subs st = .ok r → optOk r.1 ∧ invOk r.2) ∧
    (∀ kec pfx depth (idx : Nat) (node : Option WNode) st r, invOk st → optOk node →
      make_branch f kec pfx depth idx node st = .ok r → optOk r.1 ∧ invOk r.2) := by
  intro f
  induction f with
  | zero =>
      refine ⟨?_, ?_, ?_, ?_, ?_, ?_, ?_⟩
      · intro kec pfx depth st r _ h
        exact absurd h (by simp [walk.eq_def])
      · intro kec pfx depth cur st r _ _ h
        exact absurd h (by simp [walk_node.eq_def])
      · intro kec pfx depth rk v st r _ h
        exact absurd h (by simp [walk_leaf.eq_def])
      · intro kec pfx depth seg sub st r _ h
        exact absurd h (by simp [walk_extension.eq_def])
      · intro kec pfx depth subs st r _ h
        exact absurd h (by simp [walk_branch_loop.eq_def])
      · intro kec pfx depth subs st r _ h
        exact absurd h (by simp [walk_branch.eq_def])
      · intro kec pfx depth idx node st r _ _ h
        exact absurd h (by simp [make_branch.eq_def])
  | succ f ih =>
      obtain ⟨ihw, ihn, ihl, ihe, ihbl, ihb, ihmb⟩ := ih
      have hwalk : ∀ (kec : List Nat → List Nat) (pfx : List Nat) (depth : Nat)
          (st : WalkSt) (r : Option WNode × WalkSt), invOk st →
          walk (f + 1) kec pfx depth st = .ok r → optOk r.1 ∧ invOk r.2 := by
        intro kec pfx depth st r hinv h
        rw [walk.eq_def] at h
        simp only [] at h
        exact ihn kec pfx depth _ st r hinv (get_node_ok pfx depth st hinv.1) h
      have hnode : ∀ (kec : List Nat → List Nat) (pfx : List Nat) (depth : Nat)
          (cur : Option WNode) (st : WalkSt) (r : Option WNode × WalkSt), invOk st →
          optOk cur → walk_node (f + 1) kec pfx depth cur st = .ok r →
          optOk r.1 ∧ invOk r.2 := by
        intro kec pfx depth cur st r hinv hcur h
        rw [walk_node.eq_def] at h
        simp only [] at h
        by_cases hd : dirtyTopMatches st depth
        · rw [if_pos hd] at h
          have hstep : ∀ (r' : Option WNode × WalkSt),
              walk_dispatch f kec pfx depth cur st = .ok r' →
              optOk r'.1 ∧ invOk r'.2 := by
            intro r' h'
            rw [walk_dispatch.eq_def] at h'
            cases cur with
            | none => exact walk_empty_inv depth st r' hinv h'
            | some n =>
                cases n with
                | Leaf rk v => exact ihl kec pfx depth rk v st r' hinv h'
                | Extension s sub => exact ihe kec pfx depth s sub st r' hinv h'
                | Branch subs => exact ihb kec pfx depth subs st r' hinv h'
          cases hc : walk_dispatch f kec pfx depth cur st with
          | error e => rw [hc] at h; exact absurd h (by simp)
          | ok r' =>
              rw [hc] at h
              obtain ⟨ho, hi⟩ := hstep r' hc
              exact ihn kec pfx depth r'.1 r'.2 r hi ho h
        · rw [if_neg hd] at h
          simp only [Except.ok.injEq] at h
          subst h
          exact ⟨hcur, hinv⟩
      have hleaf : ∀ (kec : List Nat → List Nat) (pfx : List Nat) (depth : Nat)
          (rk v : List Nat) (st : WalkSt) (r : Option WNode × WalkSt), invOk st →
          walk_leaf (f + 1) kec pfx depth rk v st = .ok r → optOk r.1 ∧ invOk r.2 := by
        intro kec pfx depth rk v st r hinv h
        rw [walk_leaf.eq_def] at h
        simp only [] at h
        cases hd : st.dirty with
        | nil => rw [hd] at h; exact absurd h (by simp)
        | cons kv restD =>
            obtain ⟨key, new_value⟩ := kv
            rw [hd] at h
            simp only [] at h
            by_cases hcpl : (commonPrefixLen rk (key.drop depth) == rk.length) = true
            · rw [if_pos hcpl] at h
              simp only [Except.ok.injEq] at h
              subst h
              refine ⟨?_, hinv⟩
              cases new_value with
              | none => trivial
              | some nv => trivial
            · rw [if_neg hcpl] at h
              cases hmb : make_branch f kec pfx
                  (depth + commonPrefixLen rk (key.drop depth))
                  (rk.getD (commonPrefixLen rk (key.drop depth)) 0)
                  (some (WNode.Leaf (rk.drop (commonPrefixLen rk (key.drop depth) + 1)) v))
                  (setBufRange st depth
                    ((key.drop depth).take (commonPrefixLen rk (key.drop depth)))) with
              | error e => rw [hmb] at h; exact absurd h (by simp)
              | ok r' =>
                  rw [hmb] at h
                  simp only [Except.ok.injEq] at h
                  subst h
                  have hinv1 := invOk_setBufRange
                    (List.take (commonPrefixLen rk (List.drop depth key))
                      (List.drop depth key)) st depth hinv
                  have htriv : optOk (some (WNode.Leaf
                      (List.drop (commonPrefixLen rk (List.drop depth key) + 1) rk) v)) :=
                    trivial
                  obtain ⟨ho, hi⟩ := ihmb kec pfx
                    (depth + commonPrefixLen rk (List.drop depth key))
                    (rk.getD (commonPrefixLen rk (List.drop depth key)) 0)
                    (some (WNode.Leaf
                      (List.drop (commonPrefixLen rk (List.drop depth key) + 1) rk) v))
                    (setBufRange st depth
                      (List.take (commonPrefixLen rk (List.drop depth key))
                        (List.drop depth key)))
                    r' hinv1 htriv hmb
                  exact make_extension_inv kec pfx depth
                    (commonPrefixLen rk (List.drop depth key)) r'.1 r'.2 hi ho
      have hext : ∀ (kec : List Nat → List Nat) (pfx : List Nat) (depth : Nat)
          (seg sub : List Nat) (st : WalkSt) (r : Option WNode × WalkSt), invOk st →
          walk_extension (f + 1) kec pfx depth seg sub st = .ok r →
          optOk r.1 ∧ invOk r.2 := by
        intro kec pfx depth seg sub st r hinv h
        rw [walk_extension.eq_def] at h
        simp only [] at h
        have hinv1 := invOk_setBufRange seg st depth hinv
        cases hd : (setBufRange st depth seg).dirty with
        | nil => rw [hd] at h; exact absurd h (by simp)
        | cons kv restD =>
            obtain ⟨key, dval⟩ := kv
            rw [hd] at h
            simp only [] at h
            by_cases hcpl : (commonPrefixLen seg (key.drop depth) == seg.length) = true
            · rw [if_pos hcpl] at h
              cases hw : walk f kec pfx (depth + seg.length) (setBufRange st depth seg) with
              | error e => rw [hw] at h; exact absurd h (by simp)
              | ok r' =>
                  rw [hw] at h
                  simp only [Except.ok.injEq] at h
                  subst h
                  obtain ⟨ho, hi⟩ := ihw kec pfx (depth + seg.length) _ r' hinv1 hw
                  exact make_extension_inv kec pfx depth seg.length r'.1 r'.2 hi ho
            · rw [if_neg hcpl] at h
              by_cases hs2 : (seg.length - commonPrefixLen seg (key.drop depth) - 1 == 0) = true
              · rw [if_pos hs2] at h
                cases hwb : walk_branch f kec pfx (depth + commonPrefixLen seg (key.drop depth))
                    ((List.replicate 16 none).set (seg.getD (commonPrefixLen seg (key.drop depth)) 0)
                      (some sub)) (setBufRange st depth seg) with
                | error e => rw [hwb] at h; exact absurd h (by simp)
                | ok r' =>
                    rw [hwb] at h
                    simp only [Except.ok.injEq] at h
                    subst h
                    obtain ⟨ho, hi⟩ := ihb kec pfx _ _ _ r' hinv1 hwb
                    exact make_extension_inv kec pfx depth
                      (commonPrefixLen seg (key.drop depth)) r'.1 r'.2 hi ho
              · rw [if_neg hs2] at h
                cases hmb : make_branch f kec pfx (depth + commonPrefixLen seg (key.drop depth))
                    (seg.getD (commonPrefixLen seg (key.drop depth)) 0)
                    (some (WNode.Extension (seg.drop (commonPrefixLen seg (key.drop depth) + 1)) sub))
                    (setBufRange st depth seg) with
                | error e => rw [hmb] at h; exact absurd h (by simp)
                | ok r' =>
                    rw [hmb] at h
                    simp only [Except.ok.injEq] at h
                    subst h
                    have htriv : optOk (some (WNode.Extension
                        (seg.drop (commonPrefixLen seg (key.drop depth) + 1)) sub)) := trivial
                    obtain ⟨ho, hi⟩ := ihmb kec pfx
                      (depth + commonPrefixLen seg (key.drop depth))
                      (seg.getD (commonPrefixLen seg (key.drop depth)) 0)
                      (some (WNode.Extension
                        (seg.drop (commonPrefixLen seg (key.drop depth) + 1)) sub))
                      (setBufRange st depth seg) r' hinv1 htriv hmb
                    exact make_extension_inv kec pfx depth
                      (commonPrefixLen seg (key.drop depth)) r'.1 r'.2 hi ho
      have hloop : ∀ (kec : List Nat → List Nat) (pfx : List Nat) (depth : Nat)
          (subs : List (Option (List Nat))) (st : WalkSt)
          (r : List (Option (List Nat)) × WalkSt), invOk st →
          walk_branch_loop (f + 1) kec pfx depth subs st = .ok r → invOk r.2 := by
        intro kec pfx depth subs st r hinv h
        rw [walk_branch_loop.eq_def] at h
        simp only [] at h
        by_cases hd : dirtyTopMatches st depth
        · rw [if_pos hd] at h
          cases hdl : st.dirty with
          | nil => rw [hdl] at h; exact absurd h (by simp)
          | cons kv restD =>
              obtain ⟨key, dval⟩ := kv
              rw [hdl] at h
              simp only [] at h
              cases hw : walk f kec pfx (depth + 1) (setBuf st depth (key.getD depth 0)) with
              | error e => rw [hw] at h; exact absurd h (by simp)
              | ok r' =>
                  rw [hw] at h
                  obtain ⟨ho, hi⟩ := ihw kec pfx (depth + 1) _ r'
                    (invOk_setBuf st depth _ hinv) hw
                  have hwr := write_node_inv kec pfx (depth + 1) r'.1 r'.2 hi ho
                  exact ihbl kec pfx depth _ _ r hwr h
        · rw [if_neg hd] at h
          simp only [Except.ok.injEq] at h
          subst h
          exact hinv
      have hbranch : ∀ (kec : List Nat → List Nat) (pfx : List Nat) (depth : Nat)
          (subs : List (Option (List Nat))) (st : WalkSt) (r : Option WNode × WalkSt),
          invOk st → walk_branch (f + 1) kec pfx depth subs st = .ok r →
          optOk r.1 ∧ invOk r.2 := by
        intro kec pfx depth subs st r hinv h
        rw [walk_branch.eq_def] at h
        simp only [] at h
        cases hloopr : walk_branch_loop f kec pfx depth subs (setBuf st depth 0) with
        | error e => rw [hloopr] at h; exact absurd h (by simp)
        | ok r' =>
            rw [hloopr] at h
            simp only [] at h
            have hi1 := ihbl kec pfx depth subs _ r' (invOk_setBuf st depth 0 hinv) hloopr
            by_cases h0 : (countSome r'.1 == 0) = true
            · rw [if_pos h0] at h
              simp only [Except.ok.injEq] at h
              subst h
              exact ⟨trivial, hi1⟩
            · rw [if_neg h0] at h
              by_cases h1 : (countSome r'.1 == 1) = true
              · rw [if_pos h1] at h
                simp only [Except.ok.injEq] at h
                subst h
                have hinv2 : invOk (setBuf r'.2 depth (lastSomeIdx r'.1)) :=
                  invOk_setBuf r'.2 depth _ hi1
                exact make_extension_inv kec pfx depth 1
                  (get_node pfx (depth + 1) (setBuf r'.2 depth (lastSomeIdx r'.1)))
                  (setBuf r'.2 depth (lastSomeIdx r'.1)) hinv2
                  (get_node_ok pfx (depth + 1) _ hinv2.1)
              · rw [if_neg h1] at h
                simp only [Except.ok.injEq] at h
                subst h
                refine ⟨?_, hi1⟩
                show nodeOk (.Branch r'.1)
                show 2 ≤ countSome r'.1
                have hn0 : countSome r'.1 ≠ 0 := by
                  intro hc; exact h0 (by simp [hc])
                have hn1 : countSome r'.1 ≠ 1 := by
                  intro hc; exact h1 (by simp [hc])
                omega
      have hmake : ∀ (kec : List Nat → List Nat) (pfx : List Nat) (depth : Nat)
          (idx : Nat) (node : Option WNode) (st : WalkSt) (r : Option WNode × WalkSt),
          invOk st → optOk node → make_branch (f + 1) kec pfx depth idx node st = .ok r →
          optOk r.1 ∧ invOk r.2 := by
        intro kec pfx depth idx node st r hinv hn h
        rw [make_branch.eq_def] at h
        simp only [] at h
        have hw := write_node_inv kec pfx (depth + 1) node
          (setBuf st depth idx) (invOk_setBuf st depth idx hinv) hn
        exact ihb kec pfx depth _ _ r hw h
      exact ⟨hwalk, hnode, hleaf, hext, hloop, hbranch, hmake⟩

/-- C3: throughout and after every `root()` computation of the walker, no
Branch node with fewer than two children is ever persisted to the backend:
every `write_node` effect recorded in the ghost log that stores a node
stores a `nodeOk` node (a Branch only with at least two children), and the
resulting backend store satisfies the same invariant.  `walk_branch`
returns `none` when zero children remain and fuses a single child upward
before anything is written at that position. -/
theorem walker_branch_write_invariant (f : Nat) (kec : List Nat → List Nat)
    (pfx : List Nat) (st : WalkSt) (r : List Nat × WalkSt)
    (hinv : invOk st) (h : root f kec pfx st = .ok r) :
    (∀ k n, (k, some n) ∈ r.2.log → nodeOk n) ∧ storeOk r.2 := by
  rw [root] at h
  cases hw : walk f kec pfx 0 st with
  | error e => rw [hw] at h; exact absurd h (by simp)
  | ok w =>
      rw [hw] at h
      simp only [Except.ok.injEq] at h
      subst h
      obtain ⟨ho, hi⟩ := (walk_all_inv f).1 kec pfx 0 st w hinv hw
      have hfin := write_node_inv kec pfx 0 w.1 w.2 hi ho
      exact ⟨hfin.2, hfin.1⟩

/-- C5: whenever applying the dirty list leaves the trie empty — the walk
from depth 0 returns no root node — `root` returns exactly the empty-trie
constant `EMPTY_TRIE_ROOT`
(0x56e81f171bcc55a6ff8345e692c0f86e5b48e01b996cadc001622fb5e363b421);
in particular a fresh trie (empty store, empty dirty list) has this root. -/
theorem root_empty_of_walk_none (f : Nat) (kec : List Nat → List Nat)
    (pfx : List Nat) (st st' : WalkSt)
    (h : walk f kec pfx 0 st = .ok (none, st')) :
    root f kec pfx st = .ok (EMPTY_TRIE_ROOT, (write_node kec pfx 0 none st').2) := by
  rw [root, h]
  rfl

end Walk

def wst0 : Walk.WalkSt := ⟨[], [], List.replicate 128 0, []⟩

def c3st : Walk.WalkSt := ⟨[([2, 2], some [5])], [], List.replicate 128 0, []⟩

def c3res : List Nat × Walk.WalkSt :=
  (List.replicate 32 0,
   ⟨[], [([2], Walk.WNode.Leaf [2, 2] [5])], List.replicate 128 0,
    [([2], some (Walk.WNode.Leaf [2, 2] [5]))]⟩)

theorem walker_branch_write_invariant_witness :
    (∀ k n, (k, some n) ∈ c3res.2.log → Walk.nodeOk n) ∧ Walk.storeOk c3res.2 :=
  Walk.walker_branch_write_invariant 4 kecZ [2] c3st c3res
    ⟨(fun _ _ h => nomatch h), (fun _ _ h => nomatch h)⟩
    (by simp [Walk.root, Walk.walk.eq_def, Walk.walk_node.eq_def,
      Walk.walk_dispatch.eq_def, Walk.walk_empty, Walk.get_node, alistGet,
      alistPut, Walk.dirtyTopMatches, Structs.isPre, Walk.write_node,
      Walk.encodeNode, Walk.rlpStr, Walk.rlpList, Walk.concatAll,
      Walk.encode_nibble_list, Structs.packPairs, Structs.natToBE, c3st,
      c3res, kecZ])

theorem root_empty_of_walk_none_witness :
    Walk.root 2 kecZ [2] wst0 =
      Except.ok (Walk.EMPTY_TRIE_ROOT, (Walk.write_node kecZ [2] 0 none wst0).2) :=
  Walk.root_empty_of_walk_none 2 kecZ [2] wst0 wst0
    (by simp [Walk.walk.eq_def, Walk.walk_node.eq_def, Walk.get_node, alistGet,
      Walk.dirtyTopMatches, wst0])

namespace OldWalk

/-- State of the old `lib.rs` walker: the dirty list (head = the next key
in ascending order, matching the source's descending sort popped from the
back) and the backing store keyed by `trie_prefix ++ node_prefix`, holding
decoded nodes (the byte image is `Walk.encodeNode`, its RLP decoding the
inverse).  Unlike the newer walker there is no path buffer: prefixes are
recomputed from the dirty keys. -/
structure OldSt where
  dirty : List (List Nat × Option (List Nat))
  store : List (List Nat × Walk.WNode)
deriving DecidableEq, Repr

/-- Embeds `lib.rs::Walker::get_node`: read `trie_prefix ++ node_prefix`. -/
def get_node (tp np : List Nat) (st : OldSt) : Option Walk.WNode :=
  alistGet st.store (tp ++ np)

/-- Embeds `lib.rs::Walker::write_node`.  `some` stores the node and
returns its reference — the raw encoding when shorter than 32 bytes, else
its Keccak hash (`kec`).  `none` calls `lib.rs::cursor_delete`, which only
positions the cursor and never issues a delete, so the store is returned
unchanged. -/
def write_node (kec : List Nat → List Nat) (tp np : List Nat)
    (node : Option Walk.WNode) (st : OldSt) : Option (List Nat) × OldSt :=
  match node with
  | none => (none, st)
  | some n =>
      let enc := Walk.encodeNode n
      (some (if enc.length < 32 then enc else kec enc),
        { st with store := alistPut st.store (tp ++ np) n })

/-- The loop guard of `walk_node` and `walk_branch`: does the next dirty
key start with `node_prefix`? -/
def dirtyTop (st : OldSt) (np : List Nat) : Bool :=
  match st.dirty with
  | [] => false
  | (k, _) :: _ => Structs.isPre np k

/-- Embeds `lib.rs::Walker::walk_empty`: pop the next dirty entry; a
deletion leaves the position empty, an insertion produces a leaf for the
rest of the key. -/
def walk_empty (np : List Nat) (st : OldSt) :
    Except String (Option Walk.WNode × OldSt) :=
  match st.dirty with
  | [] => .error "walk_empty: dirty list empty"
  | (key, value) :: rest =>
      .ok (match value with
        | none => none
        | some v => some (.Leaf (key.drop np.length) v), { st with dirty := rest })

/-- Embeds `lib.rs::Walker::make_extension`: non-recursive, only issues
`write_node` calls at `source ++ segment`. -/
def make_extension (kec : List Nat → List Nat) (tp source segment : List Nat)
    (node : Option Walk.WNode) (st : OldSt) : Option Walk.WNode × OldSt :=
  if segment.length == 0 then (node, st)
  else
    let target := source ++ segment
    match node with
    | none => (none, (write_node kec tp target none st).2)
    | some (.Leaf rk v) =>
        (some (.Leaf (segment ++ rk) v), (write_node kec tp target none st).2)
    | some (.Extension ks sub) =>
        (some (.Extension (segment ++ ks) sub), (write_node kec tp target none st).2)
    | some (.Branch subs) =>
        let w := write_node kec tp target (some (.Branch subs)) st
        (some (.Extension segment (w.1.getD [])), w.2)

mutual

/-- Embeds `lib.rs::Walker::walk`: load the node at `node_prefix` and walk
it. -/
def walk (fuel : Nat) (kec : List Nat → List Nat) (tp np : List Nat) (st : OldSt) :
    Except String (Option Walk.WNode × OldSt) :=
  match fuel with
  | 0 => .error "out of fuel"
  | f + 1 => walk_node f kec tp np (get_node tp np st) st

/-- The shape dispatch in the body of `lib.rs::Walker::walk_node`'s while
loop. -/
def walk_dispatch (fuel : Nat) (kec : List Nat → List Nat) (tp np : List Nat)
    (cur : Option Walk.WNode) (st : OldSt) :
    Except String (Option Walk.WNode × OldSt) :=
  match cur with
  | none => walk_empty np st
  | some (.Leaf rk v) => walk_leaf fuel kec tp np rk v st
  | some (.Extension s sub) => walk_extension fuel kec tp np s sub st
  | some (.Branch subs) => walk_branch fuel kec tp np subs st

/-- Embeds `lib.rs::Walker::walk_node`: while the next dirty key starts
with `node_prefix`, dispatch on the current node's shape. -/
def walk_node (fuel : Nat) (kec : List Nat → List Nat) (tp np : List Nat)
    (cur : Option Walk.WNode) (st : OldSt) :
    Except String (Option Walk.WNode × OldSt) :=
  match fuel with
  | 0 => .error "out of fuel"
  | f + 1 =>
      if dirtyTop st np then
        match walk_dispatch f kec tp np cur st with
        | .error e => .error e
        | .ok r => walk_node f kec tp np r.1 r.2
      else .ok (cur, st)

/-- Embeds `lib.rs::Walker::walk_leaf`: replace or delete on an exact key
match, otherwise split the leaf under a fresh branch at the shared
prefix. -/
def walk_leaf (fuel : Nat) (kec : List Nat → List Nat) (tp np : List Nat)
    (rest_of_key value : List Nat) (st : OldSt) :
    Except String (Option Walk.WNode × OldSt) :=
  match fuel with
  | 0 => .error "out of fuel"
  | f + 1 =>
      match st.dirty with
      | [] => .error "walk_leaf: dirty list empty"
      | (key, new_value) :: restD =>
          let cpl := Walk.commonPrefixLen rest_of_key (key.drop np.length)
          if cpl == rest_of_key.length then
            .ok (match new_value with
              | none => none
              | some nv => some (.Leaf rest_of_key nv), { st with dirty := restD })
          else
            let leaf_node := some (Walk.WNode.Leaf (rest_of_key.drop (cpl + 1)) value)
            match make_branch f kec tp (key.take (np.length + cpl))
                (rest_of_key.getD cpl 0) leaf_node st with
            | .error e => .error e
            | .ok r => .ok (make_extension kec tp np (rest_of_key.take cpl) r.1 r.2)

/-- Embeds `lib.rs::Walker::walk_extension`: descend when the dirty key
follows the whole segment, else split the extension at the shared prefix
(`assert_ne!` on an empty segment becomes an error). -/
def walk_extension (fuel : Nat) (kec : List Nat → List Nat) (tp np : List Nat)
    (key_segment subnode : List Nat) (st : OldSt) :
    Except String (Option Walk.WNode × OldSt) :=
  match fuel with
  | 0 => .error "out of fuel"
  | f + 1 =>
      if key_segment.length == 0 then .error "walk_extension: empty segment"
      else
        match st.dirty with
        | [] => .error "walk_extension: dirty list empty"
        | (key, _) :: _ =>
            let cpl := Walk.commonPrefixLen key_segment (key.drop np.length)
            if cpl == key_segment.length then
              match walk f kec tp (key.take (np.length + key_segment.length)) st with
              | .error e => .error e
              | .ok r => .ok (make_extension kec tp np key_segment r.1 r.2)
            else
              let index := key_segment.getD cpl 0
              let segment2 := key_segment.drop (cpl + 1)
              match
                (if segment2.length == 0 then
                  walk_branch f kec tp (key.take (np.length + cpl))
                    ((List.replicate 16 none).set index (some subnode)) st
                else
                  make_branch f kec tp (key.take (np.length + cpl)) index
                    (some (Walk.WNode.Extension segment2 subnode)) st) with
              | .error e => .error e
              | .ok r => .ok (make_extension kec tp np (key_segment.take cpl) r.1 r.2)

/-- The dirty-consuming loop at the head of `lib.rs::Walker::walk_branch`:
for each dirty key under this position, walk the child at
`node_prefix ++ [index]`, persist it, and record the returned
reference. -/
def walk_branch_loop (fuel : Nat) (kec : List Nat → List Nat) (tp np : List Nat)
    (subnodes : List (Option (List Nat))) (st : OldSt) :
    Except String (List (Option (List Nat)) × OldSt) :=
  match fuel with
  | 0 => .error "out of fuel"
  | f + 1 =>
      if dirtyTop st np then
        match st.dirty with
        | [] => .error "walk_branch: dirty list empty"
        | (key, _) :: _ =>
            let index := key.getD np.length 0
            match walk f kec tp (np ++ [index]) st with
            | .error e => .error e
            | .ok r =>
                let w := write_node kec tp (np ++ [index]) r.1 r.2
                walk_branch_loop f kec tp np (subnodes.set index w.1) w.2
      else .ok (subnodes, st)

/-- Embeds `lib.rs::Walker::walk_branch`: run the loop, then collapse an
empty branch to nothing, raise a single surviving child through
`make_extension`, and keep a branch with at least two children. -/
def walk_branch (fuel : Nat) (kec : List Nat → List Nat) (tp np : List Nat)
    (subnodes : List (Option (List Nat))) (st : OldSt) :
    Except String (Option Walk.WNode × OldSt) :=
  match fuel with
  | 0 => .error "out of fuel"
  | f + 1 =>
      match walk_branch_loop f kec tp np subnodes st with
      | .error e => .error e
      | .ok r =>
          let subs := r.1
          let st1 := r.2
          if Walk.countSome subs == 0 then .ok (none, st1)
          else if Walk.countSome subs == 1 then
            let idx := Walk.lastSomeIdx subs
            .ok (make_extension kec tp np [idx] (get_node tp (np ++ [idx]) st1) st1)
          else .ok (some (.Branch subs), st1)

/-- Embeds `lib.rs::Walker::make_branch`: a fresh 16-slot vector with the
given node persisted at `node_prefix ++ [index]`, handed to
`walk_branch`. -/
def make_branch (fuel : Nat) (kec : List Nat → List Nat) (tp np : List Nat)
    (index : Nat) (node : Option Walk.WNode) (st : OldSt) :
    Except String (Option Walk.WNode × OldSt) :=
  match fuel with
  | 0 => .error "out of fuel"
  | f + 1 =>
      let w := write_node kec tp (np ++ [index]) node st
      walk_branch f kec tp np ((List.replicate 16 none).set index w.1) w.2

end

/-- Embeds `lib.rs::Walker::root`: walk from the empty node prefix,
persist the root, and produce the trie root hash; an empty trie yields
`EMPTY_TRIE_ROOT`. -/
def root (fuel : Nat) (kec : List Nat → List Nat) (tp : List Nat) (st : OldSt) :
    Except String (List Nat × OldSt) :=
  match walk fuel kec tp [] st with
  | .error e => .error e
  | .ok r =>
      let w := write_node kec tp [] r.1 r.2
      .ok (match w.1 with
        | some ref => if ref.length < 32 then kec ref else ref
        | none => Walk.EMPTY_TRIE_ROOT, w.2)

end OldWalk

def c1d1 : List (List Nat × Option (List Nat)) :=
  [([1, 0, 2, 2], some [1]), ([2, 2, 2, 2], some [2])]

def c1d2 : List (List Nat × Option (List Nat)) := [([2, 2, 2, 2], none)]

def c1d3 : List (List Nat × Option (List Nat)) := [([2, 5, 5, 5], some [3])]

def c1dn : List (List Nat × Option (List Nat)) :=
  [([1, 0, 2, 2], some [1]), ([2, 5, 5, 5], some [3])]

def c1e1 : List Nat :=
  [217, 128, 196, 130, 48, 34, 1, 196, 130, 50, 34, 2, 128, 128, 128, 128, 128, 128, 128, 128, 128, 128, 128, 128, 128, 128]

def c1e2 : List Nat := [197, 131, 32, 16, 34, 1]

def c1e3 : List Nat :=
  [238, 128, 196, 130, 48, 34, 1, 217, 128, 128, 196, 130, 32, 34, 2, 128, 128, 196, 130, 32, 85, 3, 128, 128, 128, 128, 128, 128, 128, 128, 128, 128, 128, 128, 128, 128, 128, 128, 128, 128, 128, 128, 128, 128, 128, 128, 128]

def c1en : List Nat :=
  [217, 128, 196, 130, 48, 34, 1, 196, 130, 53, 85, 3, 128, 128, 128, 128, 128, 128, 128, 128, 128, 128, 128, 128, 128, 128]

def c1sub : List Nat :=
  [217, 128, 128, 196, 130, 32, 34, 2, 128, 128, 196, 130, 32, 85, 3, 128, 128, 128, 128, 128, 128, 128, 128, 128, 128, 128]

def c1s1 : List (List Nat × Walk.WNode) :=
  [([2], Walk.WNode.Branch ((List.replicate 16 none).set 1
      (some [196, 130, 48, 34, 1]) |>.set 2 (some [196, 130, 50, 34, 2]))),
   ([2, 2], Walk.WNode.Leaf [2, 2, 2] [2]),
   ([2, 1], Walk.WNode.Leaf [0, 2, 2] [1])]

def c1s2 : List (List Nat × Walk.WNode) :=
  [([2], Walk.WNode.Leaf [1, 0, 2, 2] [1]),
   ([2, 2], Walk.WNode.Leaf [2, 2, 2] [2]),
   ([2, 1], Walk.WNode.Leaf [0, 2, 2] [1])]

def c1s3 : List (List Nat × Walk.WNode) :=
  [([2], Walk.WNode.Branch ((List.replicate 16 none).set 1
      (some [196, 130, 48, 34, 1]) |>.set 2 (some c1sub))),
   ([2, 2], Walk.WNode.Branch ((List.replicate 16 none).set 2
      (some [196, 130, 32, 34, 2]) |>.set 5 (some [196, 130, 32, 85, 3]))),
   ([2, 2, 5], Walk.WNode.Leaf [5, 5] [3]),
   ([2, 2, 2], Walk.WNode.Leaf [2, 2] [2]),
   ([2, 1], Walk.WNode.Leaf [0, 2, 2] [1])]

def c1sn : List (List Nat × Walk.WNode) :=
  [([2], Walk.WNode.Branch ((List.replicate 16 none).set 1
      (some [196, 130, 48, 34, 1]) |>.set 2 (some [196, 130, 53, 85, 3]))),
   ([2, 2], Walk.WNode.Leaf [5, 5, 5] [3]),
   ([2, 1], Walk.WNode.Leaf [0, 2, 2] [1])]

/-- C1: REFUTED.  Because `lib.rs::cursor_delete` never deletes, a
deleted key's trie nodes survive in the backend and are resurrected by a
later transaction, so the multi-transaction state root does not equal the
root of a naive MPT over the final mapping.  Concretely: tx1 inserts keys
[1,0,2,2] and [2,2,2,2]; tx2 deletes [2,2,2,2] (its leaf survives at
backend key [2,2]); tx3 inserts [2,5,5,5], walks into the stale leaf and
re-persists the deleted key's value as a live leaf at [2,2,2], so the tx3
root hashes an encoding `c1e3` containing value [2], while the naive
single-transaction root over the same final mapping hashes `c1en` (which
does not) — different hash inputs, hence different roots for any `kec`
that does not collide on them. -/
theorem multi_transaction_root_diverges (kec : List Nat → List Nat)
    (h3 : 32 ≤ (kec c1e3).length) (hne : kec c1e3 ≠ kec c1en) :
    OldWalk.root 16 kec [2] ⟨c1d1, []⟩ = Except.ok (kec c1e1, ⟨[], c1s1⟩) ∧
    OldWalk.root 16 kec [2] ⟨c1d2, c1s1⟩ = Except.ok (kec c1e2, ⟨[], c1s2⟩) ∧
    OldWalk.root 16 kec [2] ⟨c1d3, c1s2⟩ = Except.ok (kec c1e3, ⟨[], c1s3⟩) ∧
    OldWalk.root 16 kec [2] ⟨c1dn, []⟩ = Except.ok (kec c1en, ⟨[], c1sn⟩) ∧
    alistGet c1s2 [2, 2] = some (Walk.WNode.Leaf [2, 2, 2] [2]) ∧
    alistGet c1s3 [2, 2, 2] = some (Walk.WNode.Leaf [2, 2] [2]) ∧
    kec c1e3 ≠ kec c1en := by
  have h3n : ¬ (kec c1e3).length < 32 := Nat.not_lt.mpr h3
  simp only [c1e3] at h3n
  refine ⟨?_, ?_, ?_, ?_, by decide, by decide, hne⟩ <;>
    simp [OldWalk.root, OldWalk.walk.eq_def, OldWalk.walk_node.eq_def,
      OldWalk.walk_dispatch.eq_def, OldWalk.walk_leaf.eq_def,
      OldWalk.walk_extension.eq_def, OldWalk.walk_branch_loop.eq_def,
      OldWalk.walk_branch.eq_def, OldWalk.make_branch.eq_def,
      OldWalk.walk_empty, OldWalk.make_extension, OldWalk.get_node,
      OldWalk.write_node, OldWalk.dirtyTop, alistGet, alistPut,
      Walk.commonPrefixLen, Walk.countSome, Walk.lastSomeIdx,
      Walk.lastSomeIdxAux, Walk.encodeNode, Walk.rlpStr, Walk.rlpList,
      Walk.concatAll, Walk.encode_nibble_list, Structs.isPre,
      Structs.packPairs, Structs.natToBE, h3n, c1d1, c1d2, c1d3, c1dn,
      c1e1, c1e2, c1e3, c1en, c1sub, c1s1, c1s2, c1s3, c1sn]

/-- A hash fixture separating the two root encodings of the C1 scenario. -/
def c1kec : List Nat → List Nat :=
  fun l => if l == c1e3 then List.replicate 32 1 else List.replicate 32 0

theorem multi_transaction_root_diverges_witness :
    OldWalk.root 16 c1kec [2] ⟨c1d1, []⟩ = Except.ok (c1kec c1e1, ⟨[], c1s1⟩) ∧
    OldWalk.root 16 c1kec [2] ⟨c1d2, c1s1⟩ = Except.ok (c1kec c1e2, ⟨[], c1s2⟩) ∧
    OldWalk.root 16 c1kec [2] ⟨c1d3, c1s2⟩ = Except.ok (c1kec c1e3, ⟨[], c1s3⟩) ∧
    OldWalk.root 16 c1kec [2] ⟨c1dn, []⟩ = Except.ok (c1kec c1en, ⟨[], c1sn⟩) ∧
    alistGet c1s2 [2, 2] = some (Walk.WNode.Leaf [2, 2, 2] [2]) ∧
    alistGet c1s3 [2, 2, 2] = some (Walk.WNode.Leaf [2, 2] [2]) ∧
    c1kec c1e3 ≠ c1kec c1en :=
  multi_transaction_root_diverges c1kec (by decide) (by decide)

section StructsChecks

example : Structs.nibble_list_to_key [1] = [16] := by decide
example : Structs.nibble_list_to_key [1, 2] = [18] := by decide
example : Structs.nibble_list_to_key [0, 0] = [0, 0] := by decide
example : Structs.nibble_list_to_key [0, 0, 1] = [0, 16] := by decide
example : Structs.unmarshal_nibble_list (Structs.marshal_nibble_list [1, 2, 3]) =
    ([1, 2, 3], 3) := by decide

end StructsChecks
